import Mathlib

/-!
Verification of the OData utterance-generator server (`server.py`).

Strings are modelled as `List Char` (the source only manipulates ASCII
text).  Python's `str.lower()` is modelled by `lcChar`/`lcStr` (ASCII
lowercasing, which is what the source's inputs exercise).  The regular
expressions used by the post-processor — `\$filter=([^&]+)`,
`\b<prop>\b` (IGNORECASE), `[&?]\$filter=[^&]*`, `\?&`, `&&` — are
modelled by direct scanning functions with Python `re` semantics
(leftmost match, non-overlapping substitution, greedy character runs).
-/

/-- Python strings, as lists of characters. -/
abbrev Str := List Char

/-- The uppercase-to-lowercase table of the ASCII range. -/
def ucPairs : List (Char × Char) :=
  [('A', 'a'), ('B', 'b'), ('C', 'c'), ('D', 'd'), ('E', 'e'), ('F', 'f'),
   ('G', 'g'), ('H', 'h'), ('I', 'i'), ('J', 'j'), ('K', 'k'), ('L', 'l'),
   ('M', 'm'), ('N', 'n'), ('O', 'o'), ('P', 'p'), ('Q', 'q'), ('R', 'r'),
   ('S', 's'), ('T', 't'), ('U', 'u'), ('V', 'v'), ('W', 'w'), ('X', 'x'),
   ('Y', 'y'), ('Z', 'z')]

/-- ASCII lowercasing of one character, as Python's `str.lower()` does on
the ASCII range. -/
def lcChar (c : Char) : Char :=
  ((ucPairs.find? (fun p => p.1 == c)).map (fun p => p.2)).getD c

/-- Python `s.lower()`. -/
def lcStr (s : Str) : Str := s.map lcChar

/-- Test that `needle` is a prefix of `hay` (plain, case-sensitive). -/
def isPrefixB : Str → Str → Bool
  | [], _ => true
  | _ :: _, [] => false
  | a :: as, b :: bs => a == b && isPrefixB as bs

/-- Python `needle in hay` for strings (substring test). -/
def containsSub (needle : Str) : Str → Bool
  | [] => needle.isEmpty
  | h :: t => isPrefixB needle (h :: t) || containsSub needle t

/-- Case-insensitive prefix test (both sides lowercased). -/
def isPrefixCI (needle hay : Str) : Bool := isPrefixB (lcStr needle) (lcStr hay)

/-- Model of `'$top' not in endpoint.lower()`: case-insensitive substring
test against an already-lowercase needle. -/
def containsLC (needle hay : Str) : Bool := containsSub needle (lcStr hay)

def topPat : Str := "$top".data
def filterPat : Str := "$filter".data
def filterEqPat : Str := "$filter=".data
def ampTop : Str := "&$top=50".data
def qTop : Str := "?$top=50".data

/-- Python `'$top' in endpoint.lower()`. -/
def topIn (e : Str) : Bool := containsLC topPat e

/-- Python `'$filter' in endpoint.lower()`. -/
def filterIn (e : Str) : Bool := containsLC filterPat e

/-- Python `re.search(r'\$filter=([^&]+)', endpoint, re.IGNORECASE)`:
scan start positions left to right; at the first position where
`$filter=` matches case-insensitively and is followed by a non-empty
run of non-`&` characters, capture that run. -/
def findFilterClause : Str → Option Str
  | [] => none
  | h :: t =>
    if isPrefixCI filterEqPat (h :: t) then
      let clause := ((h :: t).drop filterEqPat.length).takeWhile (· ≠ '&')
      if clause.isEmpty then findFilterClause t else some clause
    else findFilterClause t

/-- Python `\w` on ASCII input. -/
def isWordChar (c : Char) : Bool := c.isAlphanum || c = '_'

def isWordOpt : Option Char → Bool
  | none => false
  | some c => isWordChar c

/-- A `\b` word boundary between an adjacent pair of characters
(`none` = beyond the string's ends). -/
def boundary (a b : Option Char) : Bool := isWordOpt a != isWordOpt b

/-- Does `\b<prop>\b` (IGNORECASE, `prop` literal) match at the start of
`rest`, whose preceding character is `prev`? -/
def wordMatchHere (prop : Str) (prev : Option Char) (rest : Str) : Bool :=
  isPrefixCI prop rest &&
  boundary prev rest.head? &&
  boundary
    (match (rest.take prop.length).getLast? with
     | some c => some c
     | none => prev)
    ((rest.drop prop.length).head?)

def wordMatchAux (prop : Str) (prev : Option Char) : Str → Bool
  | [] => wordMatchHere prop prev []
  | c :: t => wordMatchHere prop prev (c :: t) || wordMatchAux prop (some c) t

/-- Python `re.search(r'\b' + re.escape(prop) + r'\b', clause, re.IGNORECASE)`
as a Boolean. -/
def wordMatch (prop clause : Str) : Bool := wordMatchAux prop none clause

/-- After a `[&?]\$filter=` match, the characters consumed by the greedy
`[^&]*` are dropped. -/
def skipClause (t : Str) : Str := (t.drop filterEqPat.length).dropWhile (· ≠ '&')

/-- Fuel-indexed scanner for `re.sub(r'[&?]\$filter=[^&]*', '', endpoint,
flags=re.IGNORECASE)`: leftmost-first, non-overlapping, continuing right
after each deleted match.  Fuel `≥ length` suffices; the zero-fuel
fallback returns the string unchanged. -/
def stripAllF : Nat → Str → Str
  | _, [] => []
  | 0, s => s
  | fuel + 1, c :: t =>
    if (c == '&' || c == '?') && isPrefixCI filterEqPat t then
      stripAllF fuel (skipClause t)
    else
      c :: stripAllF fuel t

/-- Python `re.sub(r'[&?]\$filter=[^&]*', '', endpoint, flags=re.IGNORECASE)`. -/
def stripAll (s : Str) : Str := stripAllF s.length s

/-- Python `re.sub(r'\?&', '?', endpoint)`: leftmost, non-overlapping. -/
def replQA : Str → Str
  | [] => []
  | [c] => [c]
  | c :: c2 :: t =>
    if c = '?' ∧ c2 = '&' then '?' :: replQA t else c :: replQA (c2 :: t)

/-- Python `re.sub(r'&&', '&', endpoint)`: leftmost, non-overlapping. -/
def replAA : Str → Str
  | [] => []
  | [c] => [c]
  | c :: c2 :: t =>
    if c = '&' ∧ c2 = '&' then '&' :: replAA t else c :: replAA (c2 :: t)

/-!
The utterance post-processor of `generate_utterances` (server.py lines
998–1056).  An utterance is the JSON object produced by the LLM; the
fields the post-processor reads or writes are modelled explicitly, with
`Option` distinguishing an absent key from a present one.  The
`auto_modified` flag is only ever set to `True` by the source, and
`persona`/`persona_id` are set to `persona.get('title')` /
`persona.get('id')` (which may be Python `None`, hence the nested
`Option`). -/

structure Utterance where
  utterance : Str := []
  suggested_endpoint : Option Str := none
  complexity : Str := []
  operations_used : List Str := []
  removed_non_filterable : Option (List Str) := none
  warning : Option Str := none
  original_endpoint : Option Str := none
  auto_modified : Option Bool := none
  persona : Option (Option Str) := none
  persona_id : Option (Option Str) := none
deriving DecidableEq

structure Persona where
  title : Option Str := none
  id : Option Str := none
deriving DecidableEq

/-- Step 1 of the per-utterance repair: `$top` pagination floor
(server.py lines 1010–1017). -/
def topFix (e : Str) : Str :=
  if e ≠ [] ∧ topIn e = false then
    if e.contains '?' then e ++ ampTop else e ++ qTop
  else e

/-- Whether the pagination-floor step fired. -/
def topModified (e : Str) : Bool := decide (e ≠ []) && !topIn e

/-- The list of non-filterable properties found (case-insensitively, as
whole words) in the first `$filter=([^&]+)` clause of `e`; empty when the
filter-strip branch does not fire (lines 1020–1034). -/
def filterUsed (nf : List Str) (e : Str) : List Str :=
  if filterIn e ∧ nf ≠ [] then
    match findFilterClause e with
    | some clause => nf.filter (fun p => wordMatch p clause)
    | none => []
  else []

/-- Decidable test: does the non-filterable strip branch fire on `e`? -/
def stripFires (nf : List Str) (e : Str) : Bool := decide (filterUsed nf e ≠ [])

/-- The endpoint after the `$filter` strip and the `?&`/`&&` cleanups
(lines 1038–1041). -/
def stripResult (e : Str) : Str := replAA (replQA (stripAll e))

/-- The warning message attached when a filter is stripped (line 1044). -/
def warnMsg (used : List Str) : Str :=
  "Original filter removed due to non-filterable properties: ".data ++
    (List.intercalate ", ".data used)

/-- One pass of the per-utterance repair loop (server.py lines 1004–1050):
pagination floor, then filterability enforcement, then the conditional
write-back of `suggested_endpoint` / `original_endpoint` / `auto_modified`. -/
def postProcessUtterance (nf : List Str) (u : Utterance) : Utterance :=
  let e0 := u.suggested_endpoint.getD []
  let e1 := topFix e0
  let used := filterUsed nf e1
  let e2 := if used ≠ [] then stripResult e1 else e1
  let modified := topModified e0 || decide (used ≠ [])
  let u1 :=
    if used ≠ [] then
      { u with removed_non_filterable := some used, warning := some (warnMsg used) }
    else u
  if modified then
    let u2 := { u1 with suggested_endpoint := some e2 }
    if e0 ≠ e2 then
      { u2 with original_endpoint := some e0, auto_modified := some true }
    else u2
  else u1

/-- Persona attribution (server.py lines 1053–1056). -/
def stampPersona : Option Persona → Utterance → Utterance
  | none, u => u
  | some p, u => { u with persona := some p.title, persona_id := some p.id }

/-- The whole post-processing of the LLM's utterance list: the repair loop
followed by the persona-stamping loop. -/
def postProcessUtterances (nf : List Str) (pers : Option Persona)
    (us : List Utterance) : List Utterance :=
  (us.map (postProcessUtterance nf)).map (stampPersona pers)

/-!
The OData metadata parser `parse_odata_metadata` (server.py lines 20–137).

XML documents are modelled the way `xml.etree.ElementTree` presents
them: elements carry a fully-qualified tag written with the namespace
URI in braces, an attribute dictionary, and a child list in document
order.  `findall('.//{ns}Tag')` returns all proper descendants with that
tag in document order; `findall('{ns}Tag')` and `find('{ns}Tag')` look
at direct children only.  Python dicts are modelled as insertion-ordered
association lists where assignment to an existing key updates it in
place (`dictSet`). -/

inductive XmlNode where
  | elem (tag : Str) (attrs : List (Str × Str)) (children : List XmlNode)

def XmlNode.tag : XmlNode → Str
  | .elem t _ _ => t

def XmlNode.attrs : XmlNode → List (Str × Str)
  | .elem _ a _ => a

def XmlNode.children : XmlNode → List XmlNode
  | .elem _ _ c => c

/-- Python `element.get(name)`. -/
def getAttr (n : XmlNode) (k : Str) : Option Str :=
  (n.attrs.find? (fun p => p.1 == k)).map (·.2)

/-- Python `element.get(name, default)`. -/
def getAttrD (n : XmlNode) (k : Str) (d : Str) : Str := (getAttr n k).getD d

mutual
/-- All proper descendants of a node, in document order. -/
def descendants : XmlNode → List XmlNode
  | .elem _ _ c => descendantsList c

def descendantsList : List XmlNode → List XmlNode
  | [] => []
  | x :: xs => x :: (descendants x ++ descendantsList xs)
end

/-- Python `root.findall('.//' + tag)`. -/
def findallDeep (root : XmlNode) (tag : Str) : List XmlNode :=
  (descendants root).filter (fun n => n.tag == tag)

/-- Python `element.findall(tag)` (direct children). -/
def findallChild (n : XmlNode) (tag : Str) : List XmlNode :=
  n.children.filter (fun c => c.tag == tag)

/-- Python `element.find(tag)` (first direct child). -/
def findChild (n : XmlNode) (tag : Str) : Option XmlNode :=
  n.children.find? (fun c => c.tag == tag)

/-- ElementTree's fully qualified tag, written with braces around the
namespace URI. -/
def qualTag (ns local_ : Str) : Str := '{' :: (ns ++ ('}' :: local_))

def nsEdm : Str := "http://schemas.microsoft.com/ado/2008/09/edm".data
def nsEdm2 : Str := "http://schemas.microsoft.com/ado/2009/11/edm".data
def nsEdm3 : Str := "http://docs.oasis-open.org/odata/ns/edm".data
def nsSap : Str := "http://www.sap.com/Protocols/SAPData".data

/-- Namespace URIs tried, in the fixed priority order of the source's
`for ns_prefix in ['edm', 'edm2', 'edm3']` loops. -/
def nsList : List Str := [nsEdm, nsEdm2, nsEdm3]

def sapFilterableAttr : Str := qualTag nsSap "filterable".data
def sapSortableAttr : Str := qualTag nsSap "sortable".data

/-- Python `'NS.Name'.split('.')[-1]`: the text after the last dot (the
whole string when it has no dot, `''` for `''`). -/
def lastSeg (s : Str) : Str :=
  s.foldl (fun acc c => if c = '.' then [] else acc ++ [c]) []

structure Property where
  name : Str
  type : Str
  filterable : Bool
  sortable : Bool
deriving DecidableEq

structure NavigationProperty where
  name : Str
  relationship : Str
  to_role : Str
deriving DecidableEq

structure EntityTypeDef where
  properties : List Property
  keys : List Str
  navigation_properties : List NavigationProperty
deriving DecidableEq

structure EntitySetInfo where
  entity_type : Str
  properties : List Property
  keys : List Str
  navigation_properties : List NavigationProperty
deriving DecidableEq

def trueLit : Str := "true".data

/-- Parse one `Property` child (server.py lines 68–81): skipped when the
`Name` attribute is absent or empty; `Type` defaults to `''` and keeps
only its last dot-segment; the SAP `filterable`/`sortable` annotations
default to `'true'` and are compared lowercased against `'true'`. -/
def parsePropertyNode (el : XmlNode) : Option Property :=
  match getAttr el "Name".data with
  | none => none
  | some n =>
    if n = [] then none
    else
      some
        { name := n
          type := lastSeg (getAttrD el "Type".data [])
          filterable := lcStr (getAttrD el sapFilterableAttr trueLit) == trueLit
          sortable := lcStr (getAttrD el sapSortableAttr trueLit) == trueLit }

/-- Parse one `NavigationProperty` child (lines 84–94). -/
def parseNavNode (el : XmlNode) : Option NavigationProperty :=
  match getAttr el "Name".data with
  | none => none
  | some n =>
    if n = [] then none
    else
      some
        { name := n
          relationship := getAttrD el "Relationship".data []
          to_role := getAttrD el "ToRole".data [] }

/-- The key names of an entity type (lines 60–65): the `PropertyRef`
children of the first `Key` child, skipping empty names. -/
def parseKeys (ns : Str) (et : XmlNode) : List Str :=
  match findChild et (qualTag ns "Key".data) with
  | none => []
  | some k =>
    (findallChild k (qualTag ns "PropertyRef".data)).filterMap
      (fun pr =>
        match getAttr pr "Name".data with
        | none => none
        | some n => if n = [] then none else some n)

/-- The `Property` children of an entity type that parse, in document
order, before the cap. -/
def rawProperties (ns : Str) (et : XmlNode) : List Property :=
  (findallChild et (qualTag ns "Property".data)).filterMap parsePropertyNode

/-- The `NavigationProperty` children that parse, in document order,
before the cap. -/
def rawNavProperties (ns : Str) (et : XmlNode) : List NavigationProperty :=
  (findallChild et (qualTag ns "NavigationProperty".data)).filterMap parseNavNode

/-- Parse one `EntityType` element under one namespace (lines 50–100):
skipped when the `Name` attribute is absent or empty; properties are
capped at the first 20 and navigation properties at the first 15. -/
def parseEntityType (ns : Str) (et : XmlNode) : Option (Str × EntityTypeDef) :=
  match getAttr et "Name".data with
  | none => none
  | some n =>
    if n = [] then none
    else
      some (n,
        { properties := (rawProperties ns et).take 20
          keys := parseKeys ns et
          navigation_properties := (rawNavProperties ns et).take 15 })

/-- Python dict assignment `m[k] = v`: update in place when the key
exists, else append. -/
def dictSet {V : Type} (m : List (Str × V)) (k : Str) (v : V) : List (Str × V) :=
  if m.any (fun p => p.1 == k) then
    m.map (fun p => if p.1 == k then (k, v) else p)
  else m ++ [(k, v)]

/-- Python dict lookup returning `None` when absent. -/
def dictGet? {V : Type} (m : List (Str × V)) (k : Str) : Option V :=
  (m.find? (fun p => p.1 == k)).map (·.2)

/-- All `(name, definition)` pairs produced by the first pass, in the
order the nested loops of lines 45–100 visit them. -/
def entityTypeDefsList (root : XmlNode) : List (Str × EntityTypeDef) :=
  nsList.flatMap
    (fun ns => (findallDeep root (qualTag ns "EntityType".data)).filterMap (parseEntityType ns))

/-- The `entities` dict after the first pass. -/
def pass1Entities (root : XmlNode) : List (Str × EntityTypeDef) :=
  (entityTypeDefsList root).foldl (fun m kv => dictSet m kv.1 kv.2) []

/-- The second pass (lines 102–122): resolve each `EntitySet` against the
`entities` dict, dropping sets whose type is unknown. -/
def pass2EntitySets (root : XmlNode) (entities : List (Str × EntityTypeDef)) :
    List (Str × EntitySetInfo) :=
  nsList.foldl
    (fun containers ns =>
      (findallDeep root (qualTag ns "EntitySet".data)).foldl
        (fun containers es =>
          match getAttr es "Name".data, getAttr es "EntityType".data with
          | some sn, some ty =>
            if sn ≠ [] ∧ ty ≠ [] then
              let tyName := lastSeg ty
              match dictGet? entities tyName with
              | some d =>
                dictSet containers sn
                  { entity_type := tyName
                    properties := d.properties
                    keys := d.keys
                    navigation_properties := d.navigation_properties }
              | none => containers
            else containers
          | _, _ => containers)
        containers)
    []

/-- The outcome of `ET.fromstring` on the (BOM-stripped) input text:
either a parse error or a document tree. -/
inductive XmlInput where
  | malformed
  | parsed (root : XmlNode)

/-- Model of `parse_odata_metadata` (lines 20–137): a total function —
the `except` handlers turn malformed XML (or any other exception) into
an empty mapping, and a document with no matching elements simply
produces an empty mapping. -/
def parse_odata_metadata : XmlInput → List (Str × EntitySetInfo)
  | .malformed => []
  | .parsed root => pass2EntitySets root (pass1Entities root)

/-!
Sample-data fetching: `fetch_entity_sample` (server.py lines 618–727)
and the batch ordering of `fetch_sample_data` (lines 503–616).

JSON values are modelled structurally; JSON numbers are modelled as
integers, which covers the operations the source performs on them
(`str(value)`).  Python operations that raise `TypeError` /
`AttributeError` / `KeyError` on surprising shapes — `'results' in d`
when `d` is not a container, list indexing with a string key,
`record.items()` on a non-dict — are modelled in `Except Unit`; the
enclosing `except Exception` handler in the source turns any such
exception into a per-entity error entry. -/

inductive Json where
  | null
  | jbool (b : Bool)
  | jnum (n : Int)
  | jstr (s : Str)
  | jarr (xs : List Json)
  | jobj (fields : List (Str × Json))

def Json.isObj : Json → Bool
  | .jobj _ => true
  | _ => false

def Json.isArr : Json → Bool
  | .jarr _ => true
  | _ => false

def Json.isNull : Json → Bool
  | .null => true
  | _ => false

def objHasKey (fields : List (Str × Json)) (k : Str) : Bool :=
  fields.any (fun p => p.1 == k)

def objGet? (fields : List (Str × Json)) (k : Str) : Option Json :=
  (fields.find? (fun p => p.1 == k)).map (·.2)

/-- Python `key in value` for a string `key`: key membership for dicts,
element equality for lists (a string only equals an equal string),
substring test for strings, `TypeError` otherwise. -/
def pyInStr (k : Str) : Json → Except Unit Bool
  | .jobj fs => .ok (objHasKey fs k)
  | .jarr xs =>
    .ok (xs.any (fun j => match j with | .jstr s => s == k | _ => false))
  | .jstr s => .ok (containsSub k s)
  | _ => .error ()

/-- Python `value[key]` for a string `key`: dict lookup (`KeyError` when
absent), `TypeError` on lists and everything else. -/
def pyIndexStr (j : Json) (k : Str) : Except Unit Json :=
  match j with
  | .jobj fs =>
    match objGet? fs k with
    | some v => .ok v
    | none => .error ()
  | _ => .error ()

/-- Record extraction from a 200 response body (lines 647–657): try
`d.results`, then a top-level `value`, then `d` as a list, then a
singleton `d` wrapped in a one-element list; a non-dict body leaves
`records = []`. -/
def extractRecords (j : Json) : Except Unit Json :=
  match j with
  | .jobj fs =>
    match objGet? fs "d".data with
    | some dv => do
      let hasResults ← pyInStr "results".data dv
      if hasResults then
        pyIndexStr dv "results".data
      else if objHasKey fs "value".data then
        .ok ((objGet? fs "value".data).getD .null)
      else if dv.isArr then
        .ok dv
      else
        .ok (.jarr [dv])
    | none =>
      if objHasKey fs "value".data then
        .ok ((objGet? fs "value".data).getD .null)
      else
        .ok (.jarr [])
  | _ => .ok (.jarr [])

/-- Python truthiness of a JSON value. -/
def pyTruthy : Json → Bool
  | .null => false
  | .jbool b => b
  | .jnum n => n != 0
  | .jstr s => !s.isEmpty
  | .jarr xs => !xs.isEmpty
  | .jobj fs => !fs.isEmpty

/-- Python `for x in value`: list elements, string characters, dict keys;
`TypeError` otherwise. -/
def pyIterate : Json → Except Unit (List Json)
  | .jarr xs => .ok xs
  | .jstr s => .ok (s.map (fun c => .jstr [c]))
  | .jobj fs => .ok (fs.map (fun p => .jstr p.1))
  | _ => .error ()

/-- Python `len(value)`. -/
def pyLen : Json → Except Unit Nat
  | .jarr xs => .ok xs.length
  | .jstr s => .ok s.length
  | .jobj fs => .ok fs.length
  | _ => .error ()

/-- Python `value[0]`. -/
def pyIndex0 : Json → Except Unit Json
  | .jarr (x :: _) => .ok x
  | .jarr [] => .error ()
  | .jstr (c :: _) => .ok (.jstr [c])
  | _ => .error ()

/-- The string representation stored for a simple field value (lines
674–684): booleans normalise to lowercase, boolean-looking strings are
tagged `" (boolean)"`, numbers print as Python prints them. -/
def strValue : Json → Str
  | .jbool b => if b then "true".data else "false".data
  | .jstr s =>
    if lcStr s == trueLit || lcStr s == "false".data then
      s ++ " (boolean)".data
    else s
  | .jnum n => (toString n).data
  | _ => []

/-- Per-property accumulated value sets.  Python iterates a `set` here in
unspecified hash order before truncation; we fix first-insertion order,
which the theorems below do not depend on. -/
abbrev SampleValues := List (Str × List Str)

def addVal (vs : List Str) (v : Str) : List Str :=
  if vs.contains v then vs else vs ++ [v]

def svInsertKey (sv : SampleValues) (k : Str) : SampleValues :=
  if sv.any (fun p => p.1 == k) then sv else sv ++ [(k, [])]

def svAdd (sv : SampleValues) (k : Str) (v : Str) : SampleValues :=
  sv.map (fun p => if p.1 == k then (k, addVal p.2 v) else p)

/-- One `(key, value)` item of a record (lines 664–684): skip metadata
keys and nested containers; ensure the key is present (even for nulls);
record the stringified value when it is non-null. -/
def processField (sv : SampleValues) (k : Str) (v : Json) : SampleValues :=
  if isPrefixB "__".data k || v.isObj || v.isArr then sv
  else
    let sv1 := svInsertKey sv k
    if v.isNull then sv1 else svAdd sv1 k (strValue v)

/-- One record: `record.items()` requires a dict. -/
def collectRecord (sv : SampleValues) : Json → Except Unit SampleValues
  | .jobj fields => .ok (fields.foldl (fun a kv => processField a kv.1 kv.2) sv)
  | _ => .error ()

/-- The whole value-inventory accumulation followed by the cap of 5
unique values per property (lines 661–689). -/
def collectValues (recs : List Json) : Except Unit SampleValues := do
  let pv ← recs.foldlM collectRecord []
  pure (pv.map (fun p => (p.1, p.2.take 5)))

/-- The entry written into `entity_samples` on the HTTP-200 path.
`sample_record = none` models the *absence* of the `'sample_record'`
key (the source never writes a `None` into it: the `else None` arm on
line 694 is unreachable inside `if records:`). -/
structure SampleEntry where
  record_count : Nat
  sample_values : SampleValues
  sample_record : Option Json

/-- The HTTP-200, valid-JSON path of `fetch_entity_sample` (lines
644–700): extract records, then either build the populated entry or the
empty-result entry, which has no `sample_record` key. -/
def fetch_entity_sample_200 (body : Json) : Except Unit SampleEntry :=
  match extractRecords body with
  | .error e => .error e
  | .ok records =>
    if pyTruthy records then
      match pyIterate records with
      | .error e => .error e
      | .ok elems =>
        match collectValues elems with
        | .error e => .error e
        | .ok sv =>
          match pyLen records, pyIndex0 records with
          | .ok n, .ok r0 =>
            .ok { record_count := n, sample_values := sv, sample_record := some r0 }
          | .error e, _ => .error e
          | .ok _, .error e => .error e
    else .ok { record_count := 0, sample_values := [], sample_record := none }

/-!
Entity processing order in `fetch_sample_data` (server.py lines
528–589): entity infos are first enriched with `expandable_nav_props` /
`navigation_map` where missing, then partitioned into entities with and
without navigation properties; the former are sorted descending by
navigation-property count (Python's stable `list.sort` with
`reverse=True`) and processed first, the latter follow in insertion
order. -/

/-- One element of an entity's `navigation_properties` list as received
in the request JSON: a dict (with possibly-empty `name`/`relationship`),
a bare string, or anything else (which the source skips). -/
inductive NavEntry where
  | navDict (name : Str) (relationship : Str)
  | navStr (s : Str)
  | navOther
deriving DecidableEq

structure EntityInfo where
  navigation_properties : List NavEntry := []
  expandable_nav_props : Option (List Str) := none
  navigation_map : Option (List (Str × Str)) := none
deriving DecidableEq

def unknownLit : Str := "Unknown".data

/-- The expandable-nav-props list rebuilt from `navigation_properties`
(lines 536–555): dict entries contribute their non-empty names, string
entries contribute themselves unconditionally. -/
def buildExpandable (navs : List NavEntry) : List Str :=
  navs.foldl
    (fun acc nav =>
      match nav with
      | .navDict n _ => if n ≠ [] then acc ++ [n] else acc
      | .navStr s => acc ++ [s]
      | .navOther => acc)
    []

/-- The navigation map rebuilt alongside (same loop): for dict entries
with a non-empty name and relationship, the relationship's last
dot-segment when it contains a dot, else `'Unknown'`; string entries map
to `'Unknown'`. -/
def buildNavMap (navs : List NavEntry) : List (Str × Str) :=
  navs.foldl
    (fun acc nav =>
      match nav with
      | .navDict n r =>
        if n ≠ [] then
          if r ≠ [] then
            acc ++ [(n, if r.contains '.' then lastSeg r else unknownLit)]
          else acc
        else acc
      | .navStr s => acc ++ [(s, unknownLit)]
      | .navOther => acc)
    []

/-- Step 1 of `fetch_sample_data` (lines 530–558): fill in
`expandable_nav_props`/`navigation_map` when the former is missing or
falsy. -/
def enrichEntityInfo (i : EntityInfo) : EntityInfo :=
  match i.expandable_nav_props with
  | some (x :: xs) => { i with expandable_nav_props := some (x :: xs) }
  | _ =>
    { i with
      expandable_nav_props := some (buildExpandable i.navigation_properties)
      navigation_map := some (buildNavMap i.navigation_properties) }

/-- The navigation-property count used for prioritisation. -/
def navCount (i : EntityInfo) : Nat := (i.expandable_nav_props.getD []).length

/-- Stable insertion of one element into a list sorted descending by the
second component: equal keys keep their original relative order, exactly
as Python's stable `list.sort(key=..., reverse=True)`. -/
def insertDesc (x : Str × Nat) : List (Str × Nat) → List (Str × Nat)
  | [] => [x]
  | y :: ys => if x.2 ≤ y.2 then y :: insertDesc x ys else x :: y :: ys

/-- Stable descending sort by count, matching Python's
`entities_with_nav.sort(key=lambda x: x[1], reverse=True)`. -/
def pySortDesc : List (Str × Nat) → List (Str × Nat)
  | [] => []
  | x :: xs => insertDesc x (pySortDesc xs)

/-- The `(name, count)` pairs of entities with at least one expandable
navigation property, in insertion order (lines 561–569). -/
def entitiesWithNav (m : List (Str × EntityInfo)) : List (Str × Nat) :=
  m.filterMap
    (fun p =>
      let c := navCount (enrichEntityInfo p.2)
      if c > 0 then some (p.1, c) else none)

/-- The names of entities without navigation properties, in insertion
order. -/
def entitiesWithoutNav (m : List (Str × EntityInfo)) : List Str :=
  m.filterMap
    (fun p => if navCount (enrichEntityInfo p.2) = 0 then some p.1 else none)

/-- The order in which `fetch_entity_sample` is invoked over the batch
(lines 577–589): all entities with navigation properties, sorted
descending by count, then all entities without, in insertion order. -/
def sampleProcessingOrder (m : List (Str × EntityInfo)) : List Str :=
  (pySortDesc (entitiesWithNav m)).map Prod.fst ++ entitiesWithoutNav m

/-! ### Basic facts about the string primitives -/

theorem isPrefixB_iff (n s : Str) : isPrefixB n s = true ↔ n <+: s := by
  induction n generalizing s with
  | nil => simp [isPrefixB]
  | cons a as ih =>
    cases s with
    | nil => simp [isPrefixB]
    | cons b bs => simp [isPrefixB, List.cons_prefix_cons, ih]

theorem containsSub_iff (n s : Str) : containsSub n s = true ↔ n <:+: s := by
  induction s with
  | nil => simp [containsSub, List.isEmpty_iff]
  | cons h t ih => simp [containsSub, List.infix_cons_iff, isPrefixB_iff, ih]

theorem containsSub_middle (n x y : Str) : containsSub n (x ++ n ++ y) = true := by
  rw [containsSub_iff]
  exact ⟨x, y, by simp⟩

theorem lcStr_append (a b : Str) : lcStr (a ++ b) = lcStr a ++ lcStr b :=
  List.map_append lcChar a b

theorem containsSub_mono_right (n s t : Str) (h : containsSub n s = true) :
    containsSub n (s ++ t) = true := by
  rw [containsSub_iff] at h ⊢
  exact h.trans (s.prefix_append t).isInfix

/-! ### C5: SAP filterable/sortable annotation semantics -/

/-- C5: for every parsed `Property` element, the `filterable` and
`sortable` flags are computed from the SAP annotations as: absent
annotation yields `true`, and a present annotation yields `true` exactly
when its value lowercases to the literal string `true`; in particular a
`Property` lacking the filterability annotation parses with
`filterable = true`. -/
theorem sap_annotation_semantics (el : XmlNode) (p : Property)
    (h : parsePropertyNode el = some p) :
    (getAttr el sapFilterableAttr = none → p.filterable = true) ∧
    (∀ v, getAttr el sapFilterableAttr = some v →
      (p.filterable = true ↔ lcStr v = trueLit)) ∧
    (getAttr el sapSortableAttr = none → p.sortable = true) ∧
    (∀ v, getAttr el sapSortableAttr = some v →
      (p.sortable = true ↔ lcStr v = trueLit)) := by
  unfold parsePropertyNode at h
  cases hn : getAttr el "Name".data with
  | none => rw [hn] at h; exact absurd h (by simp)
  | some n =>
    rw [hn] at h
    by_cases hne : n = []
    · simp [hne] at h
    · simp only [hne, if_false] at h
      cases h
      refine ⟨?_, ?_, ?_, ?_⟩
      · intro hf; simp only [getAttrD, hf, Option.getD_none]; decide
      · intro v hf; simp [getAttrD, hf, beq_iff_eq]
      · intro hs; simp only [getAttrD, hs, Option.getD_none]; decide
      · intro v hs; simp [getAttrD, hs, beq_iff_eq]

def c5el : XmlNode :=
  .elem (qualTag nsEdm "Property".data)
    [("Name".data, "Country".data), ("Type".data, "Edm.String".data)] []

def c5prop : Property :=
  { name := "Country".data, type := "String".data, filterable := true, sortable := true }

/-- Witness for C5 at a concrete `Property` element lacking both SAP
annotations. -/
theorem sap_annotation_semantics_witness :
    parsePropertyNode c5el = some c5prop ∧ c5prop.filterable = true ∧
      c5prop.sortable = true :=
  ⟨by decide,
   (sap_annotation_semantics c5el c5prop (by decide)).1 (by decide),
   (sap_annotation_semantics c5el c5prop (by decide)).2.2.1 (by decide)⟩

/-! ### C6: property and navigation-property caps -/

/-- C6: every parsed `EntityType` yields at most 20 properties and at
most 15 navigation properties, and each list is exactly the prefix (in
document order) of the properties / navigation properties that parse. -/
theorem entity_type_caps (ns : Str) (et : XmlNode) (n : Str) (d : EntityTypeDef)
    (h : parseEntityType ns et = some (n, d)) :
    d.properties = (rawProperties ns et).take 20 ∧
    d.properties.length ≤ 20 ∧
    d.navigation_properties = (rawNavProperties ns et).take 15 ∧
    d.navigation_properties.length ≤ 15 := by
  unfold parseEntityType at h
  cases hn : getAttr et "Name".data with
  | none => rw [hn] at h; exact absurd h (by simp)
  | some nm =>
    rw [hn] at h
    by_cases hne : nm = []
    · simp [hne] at h
    · simp only [hne, if_false, Option.some_inj, Prod.mk.injEq] at h
      obtain ⟨-, rfl⟩ := h
      refine ⟨rfl, ?_, rfl, ?_⟩
      · exact List.length_take_le 20 _
      · exact List.length_take_le 15 _

def c6et : XmlNode :=
  .elem (qualTag nsEdm "EntityType".data) [("Name".data, "Big".data)]
    ((List.range 25).map (fun i =>
      .elem (qualTag nsEdm "Property".data)
        [("Name".data, 'P' :: (toString i).data)] []))

def c6def : EntityTypeDef :=
  { properties := (rawProperties nsEdm c6et).take 20
    keys := parseKeys nsEdm c6et
    navigation_properties := (rawNavProperties nsEdm c6et).take 15 }

/-- Witness for C6: an `EntityType` with 25 `Property` elements parses to
exactly the first 20 of them in document order. -/
theorem entity_type_caps_witness :
    parseEntityType nsEdm c6et = some ("Big".data, c6def) ∧
    c6def.properties = (rawProperties nsEdm c6et).take 20 ∧
    c6def.properties.length ≤ 20 ∧
    (rawProperties nsEdm c6et).length = 25 ∧
    c6def.properties.length = 20 :=
  ⟨rfl, (entity_type_caps nsEdm c6et _ c6def rfl).1,
   (entity_type_caps nsEdm c6et _ c6def rfl).2.1, by decide, by decide⟩

/-! ### C4: the metadata parser never raises and degrades to an empty map -/

/-- C4: the parser is a total function into entity-set mappings (the
source wraps its whole body in `except` handlers returning `{}`):
malformed XML yields the empty mapping, and a well-formed document in
which no candidate namespace matches any `EntityType` or `EntitySet`
element also yields the empty mapping. -/
theorem parse_metadata_safe (root : XmlNode)
    (_h1 : ∀ ns ∈ nsList, findallDeep root (qualTag ns "EntityType".data) = [])
    (h2 : ∀ ns ∈ nsList, findallDeep root (qualTag ns "EntitySet".data) = []) :
    parse_odata_metadata (.parsed root) = [] ∧
      parse_odata_metadata .malformed = [] := by
  refine ⟨?_, rfl⟩
  have ha := h2 nsEdm (by simp [nsList])
  have hb := h2 nsEdm2 (by simp [nsList])
  have hc := h2 nsEdm3 (by simp [nsList])
  simp [parse_odata_metadata, pass2EntitySets, nsList, ha, hb, hc]

def c4root : XmlNode := .elem "note".data [] [.elem "body".data [] []]

/-- Witness for C4 at a concrete well-formed document containing no EDM
elements. -/
theorem parse_metadata_safe_witness :
    parse_odata_metadata (.parsed c4root) = [] ∧
      parse_odata_metadata .malformed = [] :=
  parse_metadata_safe c4root
    (by intro ns hns; simp only [nsList, List.mem_cons, List.not_mem_nil, or_false] at hns
        rcases hns with rfl | rfl | rfl <;> rfl)
    (by intro ns hns; simp only [nsList, List.mem_cons, List.not_mem_nil, or_false] at hns
        rcases hns with rfl | rfl | rfl <;> rfl)

/-! ### C7: envelope tolerance of record extraction -/

/-- C7 counterexample: the first envelope test is Python's `'results' in
json_data['d']`, which on a *list* `d` is element membership; a row that
is the literal string `"results"` therefore sends the `{"d": [...]}`
shape into `json_data['d']['results']` — a `TypeError` — while the
`{"d": {"results": [...]}}` shape extracts the row, so the two shapes do
not yield identical records. -/
theorem envelope_tolerance_counterexample :
    extractRecords (.jobj [("d".data, .jarr [.jstr "results".data])]) =
      .error () ∧
    extractRecords
        (.jobj [("d".data, .jobj [("results".data,
          .jarr [.jstr "results".data])])]) =
      .ok (.jarr [.jstr "results".data]) :=
  ⟨rfl, rfl⟩

/-- C7 (amended): for every record list none of whose elements is the
literal JSON string `"results"`, the three envelope shapes
`{"d": {"results": rs}}`, `{"value": rs}` and `{"d": rs}` extract the
same records, and the shapes are tried in the fixed order
`d.results`, `value`, `d`-as-list, singleton-`d`. -/
theorem envelope_tolerance (rs : List Json)
    (h : rs.any (fun j => match j with
      | .jstr s => s == "results".data
      | _ => false) = false) :
    extractRecords (.jobj [("d".data, .jobj [("results".data, .jarr rs)])]) =
      .ok (.jarr rs) ∧
    extractRecords (.jobj [("value".data, .jarr rs)]) = .ok (.jarr rs) ∧
    extractRecords (.jobj [("d".data, .jarr rs)]) = .ok (.jarr rs) := by
  refine ⟨rfl, rfl, ?_⟩
  have hin : pyInStr "results".data (Json.jarr rs) = .ok false := by
    simp [pyInStr, h]
  show (pyInStr "results".data (Json.jarr rs) >>= fun hasResults =>
    if hasResults then pyIndexStr (Json.jarr rs) "results".data
    else if objHasKey [("d".data, Json.jarr rs)] "value".data then
      .ok ((objGet? [("d".data, Json.jarr rs)] "value".data).getD .null)
    else if (Json.jarr rs).isArr then .ok (Json.jarr rs)
    else .ok (.jarr [Json.jarr rs])) = .ok (.jarr rs)
  rw [hin]
  rfl

def c7rows : List Json :=
  [.jobj [("A".data, .jstr "x".data)], .jobj [("A".data, .jstr "y".data)]]

/-- Witness for C7 (amended) at two concrete object rows. -/
theorem envelope_tolerance_witness :
    extractRecords (.jobj [("d".data, .jobj [("results".data, .jarr c7rows)])]) =
      .ok (.jarr c7rows) ∧
    extractRecords (.jobj [("value".data, .jarr c7rows)]) = .ok (.jarr c7rows) ∧
    extractRecords (.jobj [("d".data, .jarr c7rows)]) = .ok (.jarr c7rows) :=
  envelope_tolerance c7rows (by rfl)

/-! ### C8: shape of the emitted sample entry -/

/-- C8 counterexample: an HTTP-200 body whose record list is empty takes
the `else` branch on line 700 of server.py, which writes only
`record_count` and `sample_values` — the `sample_record` key is *absent*
(`none` here), contradicting the claim that the field is present (null)
even when the result set is empty. -/
theorem sample_record_absent_counterexample :
    fetch_entity_sample_200 (.jobj [("value".data, .jarr [])]) =
      .ok { record_count := 0, sample_values := [], sample_record := none } :=
  rfl

/-- C8 (amended): on the HTTP-200 path with extracted record list `rs`
(and a value inventory that computes without a Python exception), the
emitted entry has `record_count = rs.length`, the accumulated
`sample_values`, and `sample_record` equal to the first record when
`rs` is non-empty and *absent* when `rs` is empty. -/
theorem sample_entry_shape (body : Json) (rs : List Json) (sv : SampleValues)
    (h1 : extractRecords body = .ok (.jarr rs))
    (h2 : collectValues rs = .ok sv) :
    fetch_entity_sample_200 body =
      .ok { record_count := rs.length, sample_values := sv,
            sample_record := rs.head? } := by
  unfold fetch_entity_sample_200
  rw [h1]
  cases rs with
  | nil =>
    have h2' : Except.ok ([] : SampleValues) = Except.ok sv := h2
    obtain rfl : ([] : SampleValues) = sv := by injection h2'
    rfl
  | cons r rt =>
    show (match collectValues (r :: rt) with
      | Except.error e => (Except.error e : Except Unit SampleEntry)
      | Except.ok sv =>
        match pyLen (Json.jarr (r :: rt)), pyIndex0 (Json.jarr (r :: rt)) with
        | Except.ok n, Except.ok r0 =>
          Except.ok { record_count := n, sample_values := sv,
                      sample_record := some r0 }
        | Except.error e, _ => Except.error e
        | Except.ok _, Except.error e => Except.error e) =
      Except.ok { record_count := (r :: rt).length, sample_values := sv,
                  sample_record := (r :: rt).head? }
    rw [h2]
    rfl

def c8body : Json := .jobj [("value".data, .jarr [.jobj [("A".data, .jstr "x".data)]])]

/-- Witness for C8 (amended) at a concrete one-record body. -/
theorem sample_entry_shape_witness :
    fetch_entity_sample_200 c8body =
      .ok { record_count := 1,
            sample_values := [("A".data, ["x".data])],
            sample_record := some (.jobj [("A".data, .jstr "x".data)]) } :=
  sample_entry_shape c8body [.jobj [("A".data, .jstr "x".data)]]
    [("A".data, ["x".data])] rfl rfl

/-! ### C9: sample-data batch processing order -/

theorem insertDesc_perm (x : Str × Nat) (l : List (Str × Nat)) :
    (insertDesc x l).Perm (x :: l) := by
  induction l with
  | nil => simp [insertDesc]
  | cons y ys ih =>
    unfold insertDesc
    by_cases h : x.2 ≤ y.2
    · simp only [h, if_true]
      exact (ih.cons y).trans (List.Perm.swap x y ys)
    · simp [h]

theorem pySortDesc_perm (l : List (Str × Nat)) : (pySortDesc l).Perm l := by
  induction l with
  | nil => rfl
  | cons x xs ih => exact (insertDesc_perm x (pySortDesc xs)).trans (ih.cons x)

theorem insertDesc_sorted (x : Str × Nat) (l : List (Str × Nat))
    (h : List.Sorted (fun a b : Str × Nat => b.2 ≤ a.2) l) :
    List.Sorted (fun a b : Str × Nat => b.2 ≤ a.2) (insertDesc x l) := by
  induction l with
  | nil => simp [insertDesc]
  | cons y ys ih =>
    rw [List.sorted_cons] at h
    unfold insertDesc
    by_cases hle : x.2 ≤ y.2
    · simp only [hle, if_true]
      rw [List.sorted_cons]
      refine ⟨?_, ih h.2⟩
      intro b hb
      rcases List.mem_cons.mp ((insertDesc_perm x ys).mem_iff.mp hb) with rfl | hb'
      · exact hle
      · exact h.1 b hb'
    · simp only [hle, if_false]
      rw [List.sorted_cons]
      refine ⟨?_, List.sorted_cons.mpr h⟩
      intro b hb
      rcases List.mem_cons.mp hb with rfl | hb'
      · omega
      · exact le_trans (h.1 b hb') (by omega)

theorem pySortDesc_sorted (l : List (Str × Nat)) :
    List.Sorted (fun a b : Str × Nat => b.2 ≤ a.2) (pySortDesc l) := by
  induction l with
  | nil => simp [pySortDesc]
  | cons x xs ih => exact insertDesc_sorted x (pySortDesc xs) ih

/-- C9: the sample-data batch processes all entities possessing
navigation properties first — a permutation of them sorted
non-increasingly by navigation-property count — followed by the
entities without navigation properties in insertion order. -/
theorem sample_processing_order_spec (m : List (Str × EntityInfo)) :
    sampleProcessingOrder m =
      (pySortDesc (entitiesWithNav m)).map Prod.fst ++ entitiesWithoutNav m ∧
    List.Sorted (fun a b : Str × Nat => b.2 ≤ a.2)
      (pySortDesc (entitiesWithNav m)) ∧
    (pySortDesc (entitiesWithNav m)).Perm (entitiesWithNav m) ∧
    entitiesWithoutNav m =
      m.filterMap
        (fun p => if navCount (enrichEntityInfo p.2) = 0 then some p.1 else none) :=
  ⟨rfl, pySortDesc_sorted _, pySortDesc_perm _, rfl⟩


/-! ### C1: which namespace pass wins on duplicate EntityType names -/

theorem find?_append {α : Type} (xs ys : List α) (p : α → Bool) :
    (xs ++ ys).find? p = (xs.find? p).orElse (fun _ => ys.find? p) := by
  induction xs with
  | nil => simp [Option.orElse]
  | cons a xs ih =>
    cases h : p a with
    | true => simp [List.find?_cons, h, Option.orElse]
    | false => simp only [List.cons_append, List.find?_cons, h, ih]

theorem find?_map_rewrite {V : Type} (m : List (Str × V)) (k : Str) (v : V)
    (h : m.any (fun p => p.1 == k) = true) :
    (m.map (fun p => if p.1 == k then (k, v) else p)).find?
        (fun p => p.1 == k) = some (k, v) := by
  induction m with
  | nil => simp at h
  | cons p m' ih =>
    simp only [List.map_cons]
    cases hp : (p.1 == k) with
    | true => simp [hp, List.find?_cons]
    | false =>
      simp only [List.any_cons, hp, Bool.false_or] at h
      simp only [hp, Bool.false_eq_true, if_false, List.find?_cons, hp, ih h]

theorem find?_map_rewrite_ne {V : Type} (m : List (Str × V)) (k key : Str) (v : V)
    (h : key ≠ k) :
    (m.map (fun p => if p.1 == k then (k, v) else p)).find?
        (fun p => p.1 == key) = m.find? (fun p => p.1 == key) := by
  induction m with
  | nil => rfl
  | cons p m' ih =>
    simp only [List.map_cons]
    cases hp : (p.1 == k) with
    | true =>
      have hk : p.1 = k := by simpa using hp
      have h1 : (k == key) = false := beq_eq_false_iff_ne.mpr (fun hc => h hc.symm)
      have h2 : (p.1 == key) = false := by rw [hk]; exact h1
      simp only [hp, if_true, List.find?_cons, h1, h2, ih]
    | false =>
      simp only [hp, Bool.false_eq_true, if_false, List.find?_cons]
      cases hpk : (p.1 == key) with
      | true => simp
      | false => exact ih

theorem dictGet_dictSet_self {V : Type} (m : List (Str × V)) (k : Str) (v : V) :
    dictGet? (dictSet m k v) k = some v := by
  unfold dictSet dictGet?
  by_cases h : m.any (fun p => p.1 == k) = true
  · simp only [h, if_true, find?_map_rewrite m k v h, Option.map_some']
  · simp only [h, Bool.false_eq_true, if_false, find?_append]
    have hnone : m.find? (fun p => p.1 == k) = none := by
      rw [List.find?_eq_none]
      intro x hx
      by_contra hbe
      exact h (List.any_eq_true.mpr ⟨x, hx, by simpa using hbe⟩)
    simp [hnone, Option.orElse, List.find?_cons]

theorem dictGet_dictSet_ne {V : Type} (m : List (Str × V)) (k key : Str) (v : V)
    (h : key ≠ k) :
    dictGet? (dictSet m k v) key = dictGet? m key := by
  unfold dictSet dictGet?
  by_cases hm : m.any (fun p => p.1 == k) = true
  · simp only [hm, if_true, find?_map_rewrite_ne m k key v h]
  · simp only [hm, Bool.false_eq_true, if_false, find?_append]
    have h1 : (k == key) = false := beq_eq_false_iff_ne.mpr (fun hc => h hc.symm)
    have hlast : ([(k, v)].find? (fun p => p.1 == key)) = none := by
      simp [List.find?_cons, h1]
    cases hf : m.find? (fun p => p.1 == key) with
    | none => simp [hlast, Option.orElse]
    | some w => simp [Option.orElse]

theorem dictGet_foldl {V : Type} (l : List (Str × V)) (m : List (Str × V))
    (key : Str) :
    dictGet? (l.foldl (fun acc kv => dictSet acc kv.1 kv.2) m) key =
      (match l.reverse.find? (fun kv => kv.1 == key) with
       | some w => some w.2
       | none => dictGet? m key) := by
  induction l generalizing m with
  | nil => simp
  | cons a l' ih =>
    simp only [List.foldl_cons, List.reverse_cons, ih, find?_append]
    cases hf : l'.reverse.find? (fun kv => kv.1 == key) with
    | some w => simp [Option.orElse]
    | none =>
      simp only [Option.orElse]
      cases hk : (a.1 == key) with
      | true =>
        have hkey : key = a.1 := by
          have h' : a.1 = key := by simpa using hk
          exact h'.symm
        subst hkey
        simp [List.find?_cons, hk, dictGet_dictSet_self]
      | false =>
        have hne : key ≠ a.1 := by
          intro hc
          rw [hc] at hk
          simp at hk
        simp only [List.find?_cons, hk, List.find?_nil]
        exact dictGet_dictSet_ne m a.1 key a.2 hne

/-- C1 (amended): when the same EntityType name is defined under more
than one candidate EDM namespace, the *last* namespace pass wins — dict
assignment on line 96 of server.py overwrites an existing entry — so the
lookup map used to resolve entity sets holds, for each name, the
definition from the last `(namespace, element)` occurrence in pass
order. -/
theorem entity_type_last_namespace_wins (root : XmlNode) (n : Str) :
    dictGet? (pass1Entities root) n =
      ((entityTypeDefsList root).reverse.find?
        (fun kv => kv.1 == n)).map Prod.snd := by
  unfold pass1Entities
  rw [dictGet_foldl]
  cases hf : (entityTypeDefsList root).reverse.find? (fun kv => kv.1 == n) with
  | none => rfl
  | some w => rfl

def c1propA : XmlNode :=
  .elem (qualTag nsEdm "Property".data) [("Name".data, "A".data)] []

def c1propB : XmlNode :=
  .elem (qualTag nsEdm3 "Property".data) [("Name".data, "B".data)] []

def c1root : XmlNode :=
  .elem "Edmx".data []
    [.elem (qualTag nsEdm "EntityType".data) [("Name".data, "Foo".data)] [c1propA],
     .elem (qualTag nsEdm3 "EntityType".data) [("Name".data, "Foo".data)] [c1propB],
     .elem (qualTag nsEdm "EntitySet".data)
       [("Name".data, "Foos".data), ("EntityType".data, "NS.Foo".data)] []]

/-- C1 counterexample: a document defining `EntityType Name="Foo"` under
both the 2008/09 namespace (property `A`) and the OASIS namespace
(property `B`), with an entity set `Foos` of type `NS.Foo`.  The claim
says the entity set resolves against the *earliest* namespace
(property `A`); the code resolves it against the *latest* (property
`B`). -/
theorem entity_type_first_wins_counterexample :
    dictGet? (parse_odata_metadata (.parsed c1root)) "Foos".data =
      some { entity_type := "Foo".data
             properties := [{ name := "B".data, type := [],
                              filterable := true, sortable := true }]
             keys := []
             navigation_properties := [] } ∧
    dictGet? (parse_odata_metadata (.parsed c1root)) "Foos".data ≠
      some { entity_type := "Foo".data
             properties := [{ name := "A".data, type := [],
                              filterable := true, sortable := true }]
             keys := []
             navigation_properties := [] } := by
  exact ⟨by decide, by decide⟩

/-! ### String lemmas for the post-processor -/

/-- Characters outside the lowercase table are fixed by `lcChar`. -/
theorem lcChar_fixed {d : Char}
    (hd : (ucPairs.all (fun p => p.1 != d && p.2 != d)) = true) :
    lcChar d = d := by
  unfold lcChar
  cases hf : ucPairs.find? (fun p => p.1 == d) with
  | none => simp
  | some pr =>
    have hmem := List.mem_of_find?_eq_some hf
    have hpc := List.find?_some hf
    have hprops := (List.all_eq_true.mp hd) pr hmem
    simp only [beq_iff_eq] at hpc
    simp only [Bool.and_eq_true, bne_iff_ne, ne_eq] at hprops
    exact absurd hpc hprops.1

/-- Characters that the lowercase table neither maps from nor to are
fixed points in a strong sense: nothing else lowercases to them. -/
theorem lcChar_eq_fix {c d : Char}
    (hd : (ucPairs.all (fun p => p.1 != d && p.2 != d)) = true) :
    lcChar c = d ↔ c = d := by
  constructor
  · intro h
    unfold lcChar at h
    cases hf : ucPairs.find? (fun p => p.1 == c) with
    | none => rw [hf] at h; simpa using h
    | some pr =>
      rw [hf] at h
      simp only [Option.map_some', Option.getD_some] at h
      have hmem := List.mem_of_find?_eq_some hf
      have hprops := (List.all_eq_true.mp hd) pr hmem
      simp only [Bool.and_eq_true, bne_iff_ne, ne_eq] at hprops
      exact absurd h hprops.2
  · rintro rfl
    exact lcChar_fixed hd

theorem lcChar_eq_qmark {c : Char} : lcChar c = '?' ↔ c = '?' :=
  lcChar_eq_fix (by decide)

theorem lcChar_eq_amp {c : Char} : lcChar c = '&' ↔ c = '&' :=
  lcChar_eq_fix (by decide)

theorem lcChar_eq_dollar {c : Char} : lcChar c = '$' ↔ c = '$' :=
  lcChar_eq_fix (by decide)

theorem isPrefixB_refl_append (l m : Str) : isPrefixB l (l ++ m) = true := by
  induction l with
  | nil => rfl
  | cons a as ih => simp [isPrefixB, ih]

theorem containsSub_cons_of (n : Str) (c : Char) (t : Str)
    (h : containsSub n t = true) : containsSub n (c :: t) = true := by
  simp [containsSub, h]

theorem topIn_append_ampTop (e : Str) : topIn (e ++ ampTop) = true := by
  unfold topIn containsLC
  rw [lcStr_append]
  have h1 : lcStr ampTop = '&' :: (topPat ++ "=50".data) := by decide
  rw [h1, List.append_cons (lcStr e) '&']
  rw [← List.append_assoc]
  exact containsSub_middle topPat (lcStr e ++ ['&']) ("=50".data)

theorem topIn_append_qTop (e : Str) : topIn (e ++ qTop) = true := by
  unfold topIn containsLC
  rw [lcStr_append]
  have h1 : lcStr qTop = '?' :: (topPat ++ "=50".data) := by decide
  rw [h1, List.append_cons (lcStr e) '?']
  rw [← List.append_assoc]
  exact containsSub_middle topPat (lcStr e ++ ['?']) ("=50".data)

theorem topFix_of_topIn {e : Str} (h : topIn e = true) : topFix e = e := by
  unfold topFix
  simp [h]

theorem topIn_topFix (e : Str) (he : e ≠ []) : topIn (topFix e) = true := by
  unfold topFix
  cases ht : topIn e with
  | true =>
    rw [if_neg (by simp)]
    exact ht
  | false =>
    rw [if_pos ⟨he, rfl⟩]
    cases hq : e.contains '?' with
    | true => rw [if_pos rfl]; exact topIn_append_ampTop e
    | false => rw [if_neg (by simp)]; exact topIn_append_qTop e

theorem topModified_spec (e : Str) :
    topModified e = true ↔ e ≠ [] ∧ topIn e = false := by
  unfold topModified
  cases ht : topIn e <;> simp [ht]

theorem topFix_ne_self {e : Str} (hm : topModified e = true) : topFix e ≠ e := by
  obtain ⟨he, ht⟩ := (topModified_spec e).mp hm
  unfold topFix
  rw [if_pos ⟨he, ht⟩]
  cases hq : e.contains '?' with
  | true =>
    rw [if_pos rfl]
    intro hc
    have := congrArg List.length hc
    simp [ampTop] at this
  | false =>
    rw [if_neg (by simp)]
    intro hc
    have := congrArg List.length hc
    simp [qTop] at this

theorem topFix_of_not_modified {e : Str} (hm : topModified e = false) :
    topFix e = e := by
  by_cases he : e = []
  · subst he; decide
  · have ht : topIn e = true := by
      unfold topModified at hm
      cases h : topIn e
      · exfalso; rw [h] at hm; simp [he] at hm
      · rfl
    exact topFix_of_topIn ht

/-! ### Evaluation lemmas for the post-processor -/

theorem wordMatch_nil (q : Str) : wordMatch q [] = false := by
  simp [wordMatch, wordMatchAux, wordMatchHere, boundary, isWordOpt]

/-- When the filter-strip branch does not fire, the repair pass touches
nothing except possibly appending the pagination floor. -/
theorem postProcessUtterance_no_strip_id (nf : List Str) (u : Utterance)
    (hm : topModified (u.suggested_endpoint.getD []) = false)
    (hu : filterUsed nf (topFix (u.suggested_endpoint.getD [])) = []) :
    postProcessUtterance nf u = u := by
  unfold postProcessUtterance
  simp only [hu, ne_eq, not_true_eq_false, if_false, hm, Bool.false_or,
    decide_eq_true_eq, not_false_eq_true, decide_not]

theorem postProcessUtterance_top_only (nf : List Str) (u : Utterance)
    (hm : topModified (u.suggested_endpoint.getD []) = true)
    (hu : filterUsed nf (topFix (u.suggested_endpoint.getD [])) = []) :
    postProcessUtterance nf u =
      { u with
        suggested_endpoint := some (topFix (u.suggested_endpoint.getD []))
        original_endpoint := some (u.suggested_endpoint.getD [])
        auto_modified := some true } := by
  unfold postProcessUtterance
  simp only [hu, ne_eq, not_true_eq_false, if_false, hm, Bool.true_or, if_true]
  rw [if_pos (Ne.symm (topFix_ne_self hm))]

theorem stampPersona_suggested (pers : Option Persona) (v : Utterance) :
    (stampPersona pers v).suggested_endpoint = v.suggested_endpoint := by
  cases pers <;> rfl

theorem stampPersona_stampPersona (pers : Option Persona) (v : Utterance) :
    stampPersona pers (stampPersona pers v) = stampPersona pers v := by
  cases pers <;> rfl

/-- C3-pointwise: one fully processed utterance is a fixed point of a
second processing pass, provided the strip branch did not fire. -/
theorem postProcess_idem_pointwise (nf : List Str) (pers : Option Persona)
    (u : Utterance)
    (h : stripFires nf (topFix (u.suggested_endpoint.getD [])) = false) :
    stampPersona pers (postProcessUtterance nf
        (stampPersona pers (postProcessUtterance nf u))) =
      stampPersona pers (postProcessUtterance nf u) := by
  have hu : filterUsed nf (topFix (u.suggested_endpoint.getD [])) = [] := by
    unfold stripFires at h
    simpa using h
  cases hm : topModified (u.suggested_endpoint.getD []) with
  | false =>
    rw [postProcessUtterance_no_strip_id nf u hm hu]
    have hm2 : topModified ((stampPersona pers u).suggested_endpoint.getD [])
        = false := by rw [stampPersona_suggested]; exact hm
    have hu2 : filterUsed nf
        (topFix ((stampPersona pers u).suggested_endpoint.getD [])) = [] := by
      rw [stampPersona_suggested]; exact hu
    rw [postProcessUtterance_no_strip_id nf _ hm2 hu2,
      stampPersona_stampPersona]
  | true =>
    rw [postProcessUtterance_top_only nf u hm hu]
    set e0 := u.suggested_endpoint.getD [] with he0
    set w : Utterance :=
      { u with
        suggested_endpoint := some (topFix e0)
        original_endpoint := some e0
        auto_modified := some true } with hw
    have he0ne : e0 ≠ [] := ((topModified_spec e0).mp hm).1
    have hw1 : (stampPersona pers w).suggested_endpoint.getD [] = topFix e0 := by
      rw [stampPersona_suggested]
      rfl
    have htin : topIn (topFix e0) = true := topIn_topFix e0 he0ne
    have hm2 : topModified ((stampPersona pers w).suggested_endpoint.getD [])
        = false := by
      rw [hw1]
      unfold topModified
      simp [htin]
    have hu2 : filterUsed nf
        (topFix ((stampPersona pers w).suggested_endpoint.getD [])) = [] := by
      rw [hw1, topFix_of_topIn htin]
      exact hu
    rw [postProcessUtterance_no_strip_id nf _ hm2 hu2,
      stampPersona_stampPersona]

/-- C3 (amended): the post-processor is idempotent on every utterance
list on which the non-filterable `$filter`-strip branch does not fire
(after the `$top` repair); in particular no second `$top=50` is ever
appended.  (In general a strip can delete the endpoint's only `$top`
occurrence — it sat inside the removed filter value — and then a second
pass appends `$top=50` again, see the counterexample.) -/
theorem post_process_idempotent (nf : List Str) (pers : Option Persona)
    (us : List Utterance)
    (h : ∀ u ∈ us,
      stripFires nf (topFix (u.suggested_endpoint.getD [])) = false) :
    postProcessUtterances nf pers (postProcessUtterances nf pers us) =
      postProcessUtterances nf pers us := by
  unfold postProcessUtterances
  induction us with
  | nil => rfl
  | cons u ut ih =>
    simp only [List.map_cons, List.map_map, List.cons.injEq] at ih ⊢
    constructor
    · exact postProcess_idem_pointwise nf pers u (h u (by simp))
    · exact ih (fun v hv => h v (List.mem_cons_of_mem u hv))

def c3nf : List Str := ["Region".data]

def c3u : Utterance :=
  { suggested_endpoint := some "/E?$filter=Region eq '$top'".data }

/-- C3 counterexample: the `$filter` value contains the substring `$top`,
so the first pass strips the filter (leaving `/E`, which no longer
contains `$top`) and the second pass appends `$top=50` — applying the
post-processor twice differs from applying it once. -/
theorem post_process_not_idempotent :
    postProcessUtterances c3nf none (postProcessUtterances c3nf none [c3u]) ≠
      postProcessUtterances c3nf none [c3u] := by
  decide

def c3us : List Utterance :=
  [{ suggested_endpoint := some "/Products".data },
   { suggested_endpoint := some "/E?$filter=Status eq 'A'&$top=10".data }]

/-- Witness for C3 (amended) on a concrete two-utterance list. -/
theorem post_process_idempotent_witness :
    (∀ u ∈ c3us,
      stripFires c3nf (topFix (u.suggested_endpoint.getD [])) = false) ∧
    postProcessUtterances c3nf none (postProcessUtterances c3nf none c3us) =
      postProcessUtterances c3nf none c3us :=
  ⟨by decide, post_process_idempotent c3nf none c3us (by decide)⟩

/-! ### Lemmas about the `$filter` regular-expression models -/

theorem lcStr_filterEqPat : lcStr filterEqPat = filterEqPat := by decide

theorem isPrefixCI_filterEq_cons_ne (c : Char) (X : Str) (h : lcChar c ≠ '$') :
    isPrefixCI filterEqPat (c :: X) = false := by
  unfold isPrefixCI
  rw [lcStr_filterEqPat]
  show isPrefixB ('$' :: "filter=".data) (lcStr (c :: X)) = false
  rw [show lcStr (c :: X) = lcChar c :: lcStr X from rfl]
  simp [isPrefixB, beq_eq_false_iff_ne.mpr (Ne.symm h)]

theorem isPrefixCI_filterEq_refl (X : Str) :
    isPrefixCI filterEqPat (filterEqPat ++ X) = true := by
  unfold isPrefixCI
  rw [lcStr_filterEqPat, lcStr_append, lcStr_filterEqPat]
  exact isPrefixB_refl_append filterEqPat (lcStr X)

theorem findFilterClause_cons (h : Char) (t : Str) :
    findFilterClause (h :: t) =
      (if isPrefixCI filterEqPat (h :: t) then
        if (((h :: t).drop filterEqPat.length).takeWhile (· ≠ '&')).isEmpty
        then findFilterClause t
        else some (((h :: t).drop filterEqPat.length).takeWhile (· ≠ '&'))
      else findFilterClause t) := rfl

theorem findFilterClause_append_left (p Y : Str) (hp : '$' ∉ lcStr p) :
    findFilterClause (p ++ Y) = findFilterClause Y := by
  induction p with
  | nil => rfl
  | cons a p' ih =>
    rw [show lcStr (a :: p') = lcChar a :: lcStr p' from rfl, List.mem_cons,
      not_or] at hp
    obtain ⟨ha, hp'⟩ := hp
    show findFilterClause (a :: (p' ++ Y)) = findFilterClause Y
    rw [findFilterClause_cons,
      isPrefixCI_filterEq_cons_ne a _ (fun hc => ha hc.symm)]
    simp only [Bool.false_eq_true, if_false]
    exact ih hp'

theorem takeWhile_append_amp (c r1 : Str) (hc : '&' ∉ c)
    (hr1 : r1 = [] ∨ ∃ r'', r1 = '&' :: r'') :
    (c ++ r1).takeWhile (· ≠ '&') = c := by
  induction c with
  | nil =>
    rcases hr1 with rfl | ⟨r'', rfl⟩
    · rfl
    · simp [List.takeWhile_cons]
  | cons a c' ih =>
    rw [List.mem_cons, not_or] at hc
    rw [List.cons_append, List.takeWhile_cons,
      if_pos (by simpa using decide_eq_true (fun h => hc.1 h.symm))]
    exact congrArg (a :: ·) (ih hc.2)

theorem dropWhile_append_amp (c r1 : Str) (hc : '&' ∉ c)
    (hr1 : r1 = [] ∨ ∃ r'', r1 = '&' :: r'') :
    (c ++ r1).dropWhile (· ≠ '&') = r1 := by
  induction c with
  | nil =>
    rcases hr1 with rfl | ⟨r'', rfl⟩
    · rfl
    · simp [List.dropWhile_cons]
  | cons a c' ih =>
    rw [List.mem_cons, not_or] at hc
    rw [List.cons_append, List.dropWhile_cons,
      if_pos (by simpa using decide_eq_true (fun h => hc.1 h.symm))]
    exact ih hc.2

theorem findFilterClause_at_match (c r1 : Str) (hc : '&' ∉ c) (hcne : c ≠ [])
    (hr1 : r1 = [] ∨ ∃ r'', r1 = '&' :: r'') :
    findFilterClause (filterEqPat ++ (c ++ r1)) = some c := by
  rw [show filterEqPat ++ (c ++ r1) =
    '$' :: ("filter=".data ++ (c ++ r1)) from rfl]
  rw [findFilterClause_cons]
  rw [show ('$' :: ("filter=".data ++ (c ++ r1))) =
    filterEqPat ++ (c ++ r1) from rfl]
  rw [isPrefixCI_filterEq_refl]
  rw [show (filterEqPat ++ (c ++ r1)).drop filterEqPat.length = c ++ r1 from
    List.drop_left filterEqPat (c ++ r1)]
  rw [takeWhile_append_amp c r1 hc hr1]
  simp [List.isEmpty_iff, hcne]

/-! ### Lemmas about the `[&?]\$filter=[^&]*` strip scanner -/

theorem stripAllF_zero (s : Str) : stripAllF 0 s = s := by
  cases s <;> rfl

theorem stripAllF_cons (f : Nat) (c : Char) (t : Str) :
    stripAllF (f + 1) (c :: t) =
      (if (c == '&' || c == '?') && isPrefixCI filterEqPat t then
        stripAllF f (skipClause t)
      else c :: stripAllF f t) := rfl

theorem stripAllF_append_left (p Y : Str) (hp : '$' ∉ lcStr p) :
    ∀ f, stripAllF f (p ++ '?' :: Y) =
      p ++ stripAllF (f - p.length) ('?' :: Y) := by
  induction p with
  | nil => intro f; simp
  | cons a p' ih =>
    rw [show lcStr (a :: p') = lcChar a :: lcStr p' from rfl, List.mem_cons,
      not_or] at hp
    obtain ⟨-, hp'⟩ := hp
    intro f
    cases f with
    | zero =>
      rw [stripAllF_zero, Nat.zero_sub, stripAllF_zero]
    | succ f =>
      have hpre : isPrefixCI filterEqPat (p' ++ '?' :: Y) = false := by
        cases p' with
        | nil => exact isPrefixCI_filterEq_cons_ne '?' Y (by decide)
        | cons b p'' =>
          have hb : lcChar b ≠ '$' := by
            intro hcEq
            apply hp'
            rw [show lcStr (b :: p'') = lcChar b :: lcStr p'' from rfl, hcEq]
            exact List.mem_cons_self _ _
          exact isPrefixCI_filterEq_cons_ne b _ hb
      rw [List.cons_append, stripAllF_cons, hpre, Bool.and_false]
      simp only [Bool.false_eq_true, if_false, ih hp' f]
      rw [show (a :: p').length = p'.length + 1 from rfl, Nat.succ_sub_succ]
      rfl

theorem stripAllF_match_step (k : Nat) (c r1 : Str) (hc : '&' ∉ c)
    (hr1 : r1 = [] ∨ ∃ r'', r1 = '&' :: r'') :
    stripAllF (k + 1) ('?' :: (filterEqPat ++ (c ++ r1))) = stripAllF k r1 := by
  rw [stripAllF_cons, isPrefixCI_filterEq_refl, Bool.and_true]
  rw [if_pos (show ('?' == '&' || '?' == '?') = true from by decide)]
  rw [show skipClause (filterEqPat ++ (c ++ r1)) =
    ((filterEqPat ++ (c ++ r1)).drop filterEqPat.length).dropWhile (· ≠ '&')
    from rfl]
  rw [show (filterEqPat ++ (c ++ r1)).drop filterEqPat.length = c ++ r1 from
    List.drop_left filterEqPat (c ++ r1)]
  rw [dropWhile_append_amp c r1 hc hr1]

theorem isPrefixB_of_append_left_pref (n m X : Str)
    (h : isPrefixB (n ++ m) X = true) : isPrefixB n X = true := by
  induction n generalizing X with
  | nil => rfl
  | cons a n' ih =>
    cases X with
    | nil => exact absurd h (by simp [isPrefixB])
    | cons x X' =>
      simp only [List.cons_append, isPrefixB, Bool.and_eq_true] at h ⊢
      exact ⟨h.1, ih X' h.2⟩

theorem containsSub_of_isPrefixB (n s : Str) (h : isPrefixB n s = true) :
    containsSub n s = true := by
  cases s with
  | nil =>
    cases n with
    | nil => rfl
    | cons a n' => exact absurd h (by simp [isPrefixB])
  | cons c t => simp [containsSub, h]

theorem stripAllF_no_filter (f : Nat) :
    ∀ s, containsSub filterPat (lcStr s) = false → stripAllF f s = s := by
  induction f with
  | zero => intro s _; exact stripAllF_zero s
  | succ f ih =>
    intro s hs
    cases s with
    | nil => rfl
    | cons c t =>
      have ht : containsSub filterPat (lcStr t) = false := by
        cases h : containsSub filterPat (lcStr t) with
        | false => rfl
        | true =>
          have hcons : containsSub filterPat (lcStr (c :: t)) = true := by
            rw [show lcStr (c :: t) = lcChar c :: lcStr t from rfl]
            exact containsSub_cons_of _ _ _ h
          rw [hcons] at hs
          exact absurd hs (by decide)
      have hpre : isPrefixCI filterEqPat t = false := by
        cases h : isPrefixCI filterEqPat t with
        | false => rfl
        | true =>
          unfold isPrefixCI at h
          rw [lcStr_filterEqPat] at h
          have h2 : isPrefixB filterPat (lcStr t) = true :=
            isPrefixB_of_append_left_pref filterPat "=".data (lcStr t)
              (by rw [show filterPat ++ "=".data = filterEqPat from rfl]
                  exact h)
          have h3 := containsSub_of_isPrefixB _ _ h2
          rw [h3] at ht
          exact absurd ht (by decide)
      rw [stripAllF_cons, hpre, Bool.and_false]
      simp only [Bool.false_eq_true, if_false]
      rw [ih t ht]

/-! ### Splitting occurrences at an ampersand, and the cleanup scanners -/

theorem containsSub_nil_left (s : Str) : containsSub [] s = true := by
  cases s <;> rfl

theorem isPrefixB_split_amp (n : Str) (hn : '&' ∉ n) :
    ∀ a b', isPrefixB n (a ++ '&' :: b') = true → isPrefixB n a = true := by
  induction n with
  | nil => intro a b' _; rfl
  | cons n0 n' ih =>
    intro a b' h
    rw [List.mem_cons, not_or] at hn
    cases a with
    | nil =>
      simp only [List.nil_append, isPrefixB, Bool.and_eq_true, beq_iff_eq] at h
      exact absurd h.1.symm hn.1
    | cons x a' =>
      simp only [List.cons_append, isPrefixB, Bool.and_eq_true] at h ⊢
      exact ⟨h.1, ih hn.2 a' b' h.2⟩

theorem containsSub_split_amp (n : Str) (hn : '&' ∉ n) :
    ∀ a b', containsSub n (a ++ '&' :: b') = true →
      containsSub n a = true ∨ containsSub n ('&' :: b') = true := by
  intro a
  induction a with
  | nil => intro b' h; exact Or.inr h
  | cons x a' ih =>
    intro b' h
    rw [List.cons_append] at h
    rw [show containsSub n (x :: (a' ++ '&' :: b')) =
      (isPrefixB n (x :: (a' ++ '&' :: b')) || containsSub n (a' ++ '&' :: b'))
      from rfl] at h
    rcases Bool.or_eq_true_iff.mp h with hpre | hrec
    · have : isPrefixB n (x :: a') = true :=
        isPrefixB_split_amp n hn (x :: a') b' (by rw [List.cons_append]; exact hpre)
      exact Or.inl (containsSub_of_isPrefixB _ _ this)
    · rcases ih b' hrec with hl | hr
      · exact Or.inl (containsSub_cons_of _ _ _ hl)
      · exact Or.inr hr

theorem replQA_cons2 (c c2 : Char) (t : Str) :
    replQA (c :: c2 :: t) =
      (if c = '?' ∧ c2 = '&' then '?' :: replQA t
       else c :: replQA (c2 :: t)) := rfl

theorem replAA_cons2 (c c2 : Char) (t : Str) :
    replAA (c :: c2 :: t) =
      (if c = '&' ∧ c2 = '&' then '&' :: replAA t
       else c :: replAA (c2 :: t)) := rfl

theorem lcStr_replQA : ∀ s : Str, lcStr (replQA s) = replQA (lcStr s)
  | [] => rfl
  | [c] => rfl
  | c :: c2 :: t => by
    by_cases h : c = '?' ∧ c2 = '&'
    · obtain ⟨rfl, rfl⟩ := h
      rw [replQA_cons2, if_pos ⟨rfl, rfl⟩]
      rw [show lcStr ('?' :: '&' :: t) = '?' :: '&' :: lcStr t from rfl]
      rw [replQA_cons2, if_pos ⟨rfl, rfl⟩]
      rw [show lcStr ('?' :: replQA t) = '?' :: lcStr (replQA t) from rfl]
      rw [lcStr_replQA t]
    · have h' : ¬(lcChar c = '?' ∧ lcChar c2 = '&') := by
        intro hc
        exact h ⟨lcChar_eq_qmark.mp hc.1, lcChar_eq_amp.mp hc.2⟩
      rw [replQA_cons2, if_neg h]
      rw [show lcStr (c :: c2 :: t) = lcChar c :: lcChar c2 :: lcStr t from rfl]
      rw [replQA_cons2, if_neg h']
      rw [show lcStr (c :: replQA (c2 :: t)) =
        lcChar c :: lcStr (replQA (c2 :: t)) from rfl]
      rw [lcStr_replQA (c2 :: t)]
      rfl

theorem lcStr_replAA : ∀ s : Str, lcStr (replAA s) = replAA (lcStr s)
  | [] => rfl
  | [c] => rfl
  | c :: c2 :: t => by
    by_cases h : c = '&' ∧ c2 = '&'
    · obtain ⟨rfl, rfl⟩ := h
      rw [replAA_cons2, if_pos ⟨rfl, rfl⟩]
      rw [show lcStr ('&' :: '&' :: t) = '&' :: '&' :: lcStr t from rfl]
      rw [replAA_cons2, if_pos ⟨rfl, rfl⟩]
      rw [show lcStr ('&' :: replAA t) = '&' :: lcStr (replAA t) from rfl]
      rw [lcStr_replAA t]
    · have h' : ¬(lcChar c = '&' ∧ lcChar c2 = '&') := by
        intro hc
        exact h ⟨lcChar_eq_amp.mp hc.1, lcChar_eq_amp.mp hc.2⟩
      rw [replAA_cons2, if_neg h]
      rw [show lcStr (c :: c2 :: t) = lcChar c :: lcChar c2 :: lcStr t from rfl]
      rw [replAA_cons2, if_neg h']
      rw [show lcStr (c :: replAA (c2 :: t)) =
        lcChar c :: lcStr (replAA (c2 :: t)) from rfl]
      rw [lcStr_replAA (c2 :: t)]
      rfl

theorem isPrefixB_replQA :
    ∀ (s n : Str), '?' ∉ n →
      isPrefixB n (replQA s) = true → isPrefixB n s = true := by
  intro s
  induction s using replQA.induct with
  | case1 => exact fun n _ h => h
  | case2 c => exact fun n _ h => h
  | case3 c c2 t hcc ih =>
    obtain ⟨rfl, rfl⟩ := hcc
    intro n hn
    rw [replQA_cons2, if_pos ⟨rfl, rfl⟩]
    intro h
    cases n with
    | nil => rfl
    | cons n0 n' =>
      simp only [isPrefixB, Bool.and_eq_true, beq_iff_eq] at h
      exact absurd h.1 (by rintro rfl; exact hn (List.mem_cons_self _ _))
  | case4 c c2 t hcc ih =>
    intro n hn
    rw [replQA_cons2, if_neg hcc]
    intro h
    cases n with
    | nil => rfl
    | cons n0 n' =>
      simp only [isPrefixB, Bool.and_eq_true] at h ⊢
      exact ⟨h.1, ih n' (fun hmem => hn (List.mem_cons_of_mem _ hmem)) h.2⟩

theorem containsSub_replQA :
    ∀ (s n : Str), '?' ∉ n →
      containsSub n (replQA s) = true → containsSub n s = true := by
  intro s
  induction s using replQA.induct with
  | case1 => exact fun n _ h => h
  | case2 c => exact fun n _ h => h
  | case3 c c2 t hcc ih =>
    obtain ⟨rfl, rfl⟩ := hcc
    intro n hn
    rw [replQA_cons2, if_pos ⟨rfl, rfl⟩]
    intro h
    rw [show containsSub n ('?' :: replQA t) =
      (isPrefixB n ('?' :: replQA t) || containsSub n (replQA t)) from rfl]
      at h
    rcases Bool.or_eq_true_iff.mp h with hpre | hrec
    · cases n with
      | nil => exact containsSub_nil_left _
      | cons n0 n' =>
        simp only [isPrefixB, Bool.and_eq_true, beq_iff_eq] at hpre
        exact absurd hpre.1 (by rintro rfl; exact hn (List.mem_cons_self _ _))
    · exact containsSub_cons_of _ _ _
        (containsSub_cons_of _ _ _ (ih n hn hrec))
  | case4 c c2 t hcc ih =>
    intro n hn
    rw [replQA_cons2, if_neg hcc]
    intro h
    rw [show containsSub n (c :: replQA (c2 :: t)) =
      (isPrefixB n (c :: replQA (c2 :: t)) || containsSub n (replQA (c2 :: t)))
      from rfl] at h
    rcases Bool.or_eq_true_iff.mp h with hpre | hrec
    · cases n with
      | nil => exact containsSub_nil_left _
      | cons n0 n' =>
        simp only [isPrefixB, Bool.and_eq_true] at hpre
        have h2 := isPrefixB_replQA (c2 :: t) n'
          (fun hmem => hn (List.mem_cons_of_mem _ hmem)) hpre.2
        rw [show containsSub (n0 :: n') (c :: c2 :: t) =
          (isPrefixB (n0 :: n') (c :: c2 :: t) ||
            containsSub (n0 :: n') (c2 :: t)) from rfl]
        simp only [isPrefixB, Bool.and_eq_true, Bool.or_eq_true_iff]
        exact Or.inl ⟨hpre.1, h2⟩
    · exact containsSub_cons_of _ _ _ (ih n hn hrec)

theorem isPrefixB_replAA :
    ∀ (s n : Str), '&' ∉ n →
      isPrefixB n (replAA s) = true → isPrefixB n s = true := by
  intro s
  induction s using replAA.induct with
  | case1 => exact fun n _ h => h
  | case2 c => exact fun n _ h => h
  | case3 c c2 t hcc ih =>
    obtain ⟨rfl, rfl⟩ := hcc
    intro n hn
    rw [replAA_cons2, if_pos ⟨rfl, rfl⟩]
    intro h
    cases n with
    | nil => rfl
    | cons n0 n' =>
      simp only [isPrefixB, Bool.and_eq_true, beq_iff_eq] at h
      exact absurd h.1 (by rintro rfl; exact hn (List.mem_cons_self _ _))
  | case4 c c2 t hcc ih =>
    intro n hn
    rw [replAA_cons2, if_neg hcc]
    intro h
    cases n with
    | nil => rfl
    | cons n0 n' =>
      simp only [isPrefixB, Bool.and_eq_true] at h ⊢
      exact ⟨h.1, ih n' (fun hmem => hn (List.mem_cons_of_mem _ hmem)) h.2⟩

theorem containsSub_replAA :
    ∀ (s n : Str), '&' ∉ n →
      containsSub n (replAA s) = true → containsSub n s = true := by
  intro s
  induction s using replAA.induct with
  | case1 => exact fun n _ h => h
  | case2 c => exact fun n _ h => h
  | case3 c c2 t hcc ih =>
    obtain ⟨rfl, rfl⟩ := hcc
    intro n hn
    rw [replAA_cons2, if_pos ⟨rfl, rfl⟩]
    intro h
    rw [show containsSub n ('&' :: replAA t) =
      (isPrefixB n ('&' :: replAA t) || containsSub n (replAA t)) from rfl]
      at h
    rcases Bool.or_eq_true_iff.mp h with hpre | hrec
    · cases n with
      | nil => exact containsSub_nil_left _
      | cons n0 n' =>
        simp only [isPrefixB, Bool.and_eq_true, beq_iff_eq] at hpre
        exact absurd hpre.1 (by rintro rfl; exact hn (List.mem_cons_self _ _))
    · exact containsSub_cons_of _ _ _
        (containsSub_cons_of _ _ _ (ih n hn hrec))
  | case4 c c2 t hcc ih =>
    intro n hn
    rw [replAA_cons2, if_neg hcc]
    intro h
    rw [show containsSub n (c :: replAA (c2 :: t)) =
      (isPrefixB n (c :: replAA (c2 :: t)) || containsSub n (replAA (c2 :: t)))
      from rfl] at h
    rcases Bool.or_eq_true_iff.mp h with hpre | hrec
    · cases n with
      | nil => exact containsSub_nil_left _
      | cons n0 n' =>
        simp only [isPrefixB, Bool.and_eq_true] at hpre
        have h2 := isPrefixB_replAA (c2 :: t) n'
          (fun hmem => hn (List.mem_cons_of_mem _ hmem)) hpre.2
        rw [show containsSub (n0 :: n') (c :: c2 :: t) =
          (isPrefixB (n0 :: n') (c :: c2 :: t) ||
            containsSub (n0 :: n') (c2 :: t)) from rfl]
        simp only [isPrefixB, Bool.and_eq_true, Bool.or_eq_true_iff]
        exact Or.inl ⟨hpre.1, h2⟩
    · exact containsSub_cons_of _ _ _ (ih n hn hrec)

theorem length_replQA : ∀ s : Str, (replQA s).length ≤ s.length
  | [] => le_refl _
  | [_] => le_refl _
  | c :: c2 :: t => by
    by_cases h : c = '?' ∧ c2 = '&'
    · rw [replQA_cons2, if_pos h]
      have := length_replQA t
      simp only [List.length_cons]
      omega
    · rw [replQA_cons2, if_neg h]
      have := length_replQA (c2 :: t)
      simp only [List.length_cons] at this ⊢
      omega

theorem length_replAA : ∀ s : Str, (replAA s).length ≤ s.length
  | [] => le_refl _
  | [_] => le_refl _
  | c :: c2 :: t => by
    by_cases h : c = '&' ∧ c2 = '&'
    · rw [replAA_cons2, if_pos h]
      have := length_replAA t
      simp only [List.length_cons]
      omega
    · rw [replAA_cons2, if_neg h]
      have := length_replAA (c2 :: t)
      simp only [List.length_cons] at this ⊢
      omega

theorem replQA_of_no_qmark : ∀ s : Str, '?' ∉ s → replQA s = s
  | [], _ => rfl
  | [_], _ => rfl
  | c :: c2 :: t, hs => by
    rw [List.mem_cons, not_or] at hs
    rw [replQA_cons2, if_neg (by intro hc; exact hs.1 hc.1.symm)]
    exact congrArg (c :: ·) (replQA_of_no_qmark (c2 :: t) hs.2)

theorem replAA_append_amp (p m : Str) (hp : '&' ∉ p)
    (hm : m.head? ≠ some '&') :
    replAA (p ++ '&' :: m) = p ++ '&' :: replAA m := by
  induction p with
  | nil =>
    cases m with
    | nil => rfl
    | cons d m' =>
      have hd : d ≠ '&' := by
        intro hc
        exact hm (by rw [hc]; rfl)
      rw [List.nil_append, replAA_cons2,
        if_neg (by intro hc; exact hd hc.2)]
      rfl
  | cons x p' ih =>
    rw [List.mem_cons, not_or] at hp
    cases hpp : p' ++ '&' :: m with
    | nil => exact absurd hpp (by simp)
    | cons z zs =>
      rw [List.cons_append, hpp, replAA_cons2,
        if_neg (by intro hc; exact hp.1 hc.1.symm), ← hpp, ih hp.2]
      rfl

/-! ### The strip path of the post-processor, evaluated in closed form -/

theorem filterEqPat_length : filterEqPat.length = 8 := by decide

/-- Core evaluation: an endpoint of the shape
`p ++ "?$filter=" ++ c ++ r` (path `p` without `'$'`, clause `c` without
`'&'`, remainder `r` empty or starting with `'&'` and free of `$filter`)
whose clause mentions a non-filterable property is processed into
`cleanups (p ++ r1)`, where `r1` is `r` possibly extended by the
appended `&$top=50`; the matched properties, warning, original endpoint
and `auto_modified` flag are recorded. -/
theorem postProcess_strip_eval (nf : List Str) (u : Utterance) (p c r : Str)
    (hu : u.suggested_endpoint = some (p ++ '?' :: (filterEqPat ++ (c ++ r))))
    (hp : '$' ∉ lcStr p)
    (hc : '&' ∉ c)
    (hr : r = [] ∨ ∃ r', r = '&' :: r')
    (hrf : containsSub filterPat (lcStr r) = false)
    (hused : nf.filter (fun q => wordMatch q c) ≠ []) :
    ∃ r1 : Str,
      ((topIn (p ++ '?' :: (filterEqPat ++ (c ++ r))) = true ∧ r1 = r) ∨
       (topIn (p ++ '?' :: (filterEqPat ++ (c ++ r))) = false ∧
         r1 = r ++ ampTop)) ∧
      (r1 = [] ∨ ∃ r'', r1 = '&' :: r'') ∧
      containsSub filterPat (lcStr r1) = false ∧
      postProcessUtterance nf u =
        { u with
          suggested_endpoint := some (replAA (replQA (p ++ r1)))
          removed_non_filterable := some (nf.filter (fun q => wordMatch q c))
          warning := some (warnMsg (nf.filter (fun q => wordMatch q c)))
          original_endpoint := some (p ++ '?' :: (filterEqPat ++ (c ++ r)))
          auto_modified := some true } := by
  have hcne : c ≠ [] := by
    rintro rfl
    exact hused (List.filter_eq_nil_iff.mpr (fun q _ => by simp [wordMatch_nil]))
  have hnf : nf ≠ [] := by rintro rfl; exact hused rfl
  have key : ∀ r1 : Str, (r1 = [] ∨ ∃ r'', r1 = '&' :: r'') →
      containsSub filterPat (lcStr r1) = false →
      r1.length ≤ r.length + 8 →
      topFix (p ++ '?' :: (filterEqPat ++ (c ++ r))) =
        p ++ '?' :: (filterEqPat ++ (c ++ r1)) →
      postProcessUtterance nf u =
        { u with
          suggested_endpoint := some (replAA (replQA (p ++ r1)))
          removed_non_filterable := some (nf.filter (fun q => wordMatch q c))
          warning := some (warnMsg (nf.filter (fun q => wordMatch q c)))
          original_endpoint := some (p ++ '?' :: (filterEqPat ++ (c ++ r)))
          auto_modified := some true } := by
    intro r1 hr1 hrf1 hlen1 htf
    have hfi : filterIn (p ++ '?' :: (filterEqPat ++ (c ++ r1))) = true := by
      unfold filterIn containsLC
      have hsplit : lcStr (p ++ '?' :: (filterEqPat ++ (c ++ r1))) =
          ((lcStr p ++ ['?']) ++ filterPat) ++ ('=' :: lcStr (c ++ r1)) := by
        rw [lcStr_append]
        rw [show lcStr ('?' :: (filterEqPat ++ (c ++ r1))) =
          '?' :: (filterEqPat ++ lcStr (c ++ r1)) from by
            rw [show lcStr ('?' :: (filterEqPat ++ (c ++ r1))) =
              lcChar '?' :: lcStr (filterEqPat ++ (c ++ r1)) from rfl,
              lcStr_append, lcStr_filterEqPat]
            rfl]
        rw [show filterEqPat ++ lcStr (c ++ r1) =
          filterPat ++ ('=' :: lcStr (c ++ r1)) from by
            rw [show filterEqPat = filterPat ++ ['='] from rfl]
            simp [List.append_assoc]]
        simp [List.append_assoc]
      rw [hsplit]
      exact containsSub_middle filterPat (lcStr p ++ ['?']) _
    have hfc : findFilterClause (p ++ '?' :: (filterEqPat ++ (c ++ r1))) =
        some c := by
      rw [findFilterClause_append_left p _ hp]
      rw [findFilterClause_cons, isPrefixCI_filterEq_cons_ne '?' _ (by decide)]
      simp only [Bool.false_eq_true, if_false]
      exact findFilterClause_at_match c r1 hc hcne hr1
    have hfu : filterUsed nf (p ++ '?' :: (filterEqPat ++ (c ++ r1))) =
        nf.filter (fun q => wordMatch q c) := by
      unfold filterUsed
      rw [if_pos ⟨hfi, hnf⟩, hfc]
    have hstrip : stripAll (p ++ '?' :: (filterEqPat ++ (c ++ r1))) =
        p ++ r1 := by
      unfold stripAll
      rw [stripAllF_append_left p _ hp]
      have hlen : (p ++ '?' :: (filterEqPat ++ (c ++ r1))).length - p.length =
          (8 + (c ++ r1).length) + 1 := by
        have h8 := filterEqPat_length
        simp only [List.length_append, List.length_cons]
        omega
      rw [hlen, stripAllF_match_step _ c r1 hc hr1,
        stripAllF_no_filter _ r1 hrf1]
    have hne2 : p ++ '?' :: (filterEqPat ++ (c ++ r)) ≠
        replAA (replQA (p ++ r1)) := by
      intro hcEq
      have h1 : (replAA (replQA (p ++ r1))).length ≤ (p ++ r1).length :=
        le_trans (length_replAA _) (length_replQA _)
      have h3 := congrArg List.length hcEq
      have h8 := filterEqPat_length
      have hcl : 1 ≤ c.length := List.length_pos.mpr hcne
      simp only [List.length_append, List.length_cons] at h1 h3
      omega
    have hd : decide (nf.filter (fun q => wordMatch q c) ≠ []) = true :=
      decide_eq_true hused
    unfold postProcessUtterance
    simp only [hu, Option.getD_some, htf, hfu]
    unfold stripResult
    rw [hstrip]
    simp only [hd, Bool.or_true]
    simp only [eq_true hused, if_true]
    rw [if_pos hne2]
  cases htop : topIn (p ++ '?' :: (filterEqPat ++ (c ++ r))) with
  | true =>
    refine ⟨r, Or.inl ⟨rfl, rfl⟩, hr, hrf, key r hr hrf (by omega)
      (topFix_of_topIn htop)⟩
  | false =>
    have hr1 : r ++ ampTop = [] ∨ ∃ r'', r ++ ampTop = '&' :: r'' := by
      rcases hr with rfl | ⟨r', rfl⟩
      · exact Or.inr ⟨"$top=50".data, rfl⟩
      · exact Or.inr ⟨r' ++ ampTop, rfl⟩
    have hrf1 : containsSub filterPat (lcStr (r ++ ampTop)) = false := by
      cases hcontains : containsSub filterPat (lcStr (r ++ ampTop)) with
      | false => rfl
      | true =>
        rw [lcStr_append, show lcStr ampTop = '&' :: "$top=50".data from by
          decide] at hcontains
        rcases containsSub_split_amp filterPat (by decide) _ _ hcontains
          with hl | hrr
        · rw [hl] at hrf; exact hrf
        · exact absurd hrr (by decide)
    have htf : topFix (p ++ '?' :: (filterEqPat ++ (c ++ r))) =
        p ++ '?' :: (filterEqPat ++ (c ++ (r ++ ampTop))) := by
      unfold topFix
      rw [if_pos ⟨by simp, htop⟩]
      rw [if_pos (show (p ++ '?' :: (filterEqPat ++ (c ++ r))).contains '?'
        = true by simp)]
      simp [List.append_assoc]
    have hlen1 : (r ++ ampTop).length ≤ r.length + 8 := by
      simp [List.length_append, ampTop]
    exact ⟨r ++ ampTop, Or.inr ⟨rfl, rfl⟩, hr1, hrf1,
      key (r ++ ampTop) hr1 hrf1 hlen1 htf⟩

/-! ### C2: filterability enforcement (filter stripping) -/

/-- C2 (amended): for an endpoint whose `$filter` clause is introduced by
`'?'` (path free of `'$'`, clause free of `'&'`, any trailing parameters
`'&'`-separated and free of `$filter`) and mentions a non-filterable
property, the post-processor produces an endpoint containing no
`$filter` (case-insensitively), records exactly the matched
non-filterable property names and a warning, preserves the original
endpoint, and sets `auto_modified`. -/
theorem filter_strip_spec (nf : List Str) (u : Utterance) (p c r : Str)
    (hu : u.suggested_endpoint = some (p ++ '?' :: (filterEqPat ++ (c ++ r))))
    (hp : '$' ∉ lcStr p)
    (hc : '&' ∉ c)
    (hr : r = [] ∨ ∃ r', r = '&' :: r')
    (hrf : containsSub filterPat (lcStr r) = false)
    (hused : nf.filter (fun q => wordMatch q c) ≠ []) :
    ∃ e2 : Str,
      (postProcessUtterance nf u).suggested_endpoint = some e2 ∧
      filterIn e2 = false ∧
      (postProcessUtterance nf u).removed_non_filterable =
        some (nf.filter (fun q => wordMatch q c)) ∧
      (postProcessUtterance nf u).warning =
        some (warnMsg (nf.filter (fun q => wordMatch q c))) ∧
      (postProcessUtterance nf u).original_endpoint =
        some (p ++ '?' :: (filterEqPat ++ (c ++ r))) ∧
      (postProcessUtterance nf u).auto_modified = some true := by
  obtain ⟨r1, _, hr1shape, hrf1, heq⟩ :=
    postProcess_strip_eval nf u p c r hu hp hc hr hrf hused
  refine ⟨replAA (replQA (p ++ r1)), by rw [heq], ?_, by rw [heq],
    by rw [heq], by rw [heq], by rw [heq]⟩
  unfold filterIn containsLC
  cases hcon : containsSub filterPat (lcStr (replAA (replQA (p ++ r1)))) with
  | false => rfl
  | true =>
    exfalso
    rw [lcStr_replAA, lcStr_replQA] at hcon
    have h1 := containsSub_replAA _ _ (by decide) hcon
    have h2 := containsSub_replQA _ _ (by decide) h1
    rw [lcStr_append] at h2
    rcases hr1shape with rfl | ⟨r'', rfl⟩
    · rw [show lcStr ([] : Str) = [] from rfl, List.append_nil] at h2
      have hinf := (containsSub_iff _ _).mp h2
      exact hp (hinf.sublist.subset (show '$' ∈ filterPat from by decide))
    · rw [show lcStr ('&' :: r'') = '&' :: lcStr r'' from rfl] at h2
      rcases containsSub_split_amp filterPat (by decide) _ _ h2 with hl | hrr
      · have hinf := (containsSub_iff _ _).mp hl
        exact hp (hinf.sublist.subset (show '$' ∈ filterPat from by decide))
      · rw [show ('&' :: lcStr r'') = lcStr ('&' :: r'') from rfl] at hrr
        rw [hrr] at hrf1
        exact absurd hrf1 (by decide)

def c2nf : List Str := ["Region".data]

def c2u : Utterance :=
  { suggested_endpoint := some "$filter=Region eq 'Y'".data }

/-- C2 counterexample: when the endpoint's `$filter` is not preceded by
`'?'` or `'&'` (here it starts the endpoint), the strip regex
`[&?]\$filter=[^&]*` cannot match, so although the non-filterable check
fires (`removed_non_filterable = ["Region"]`), the repaired endpoint
still contains a `$filter` clause — contradicting the claim that the
entire `$filter=` segment is always removed. -/
theorem filter_strip_counterexample :
    (postProcessUtterance c2nf c2u).removed_non_filterable =
      some ["Region".data] ∧
    (postProcessUtterance c2nf c2u).warning ≠ none ∧
    filterIn ((postProcessUtterance c2nf c2u).suggested_endpoint.getD []) =
      true := by
  decide

def c2wu : Utterance :=
  { suggested_endpoint :=
      some "/Entity?$filter=Status eq 'X' and Region eq 'Y'".data }

/-- Witness for C2 (amended) on the spec's own example
`$filter=Status eq 'X' and Region eq 'Y'` with `Region` non-filterable. -/
theorem filter_strip_spec_witness :
    ∃ e2 : Str,
      (postProcessUtterance c2nf c2wu).suggested_endpoint = some e2 ∧
      filterIn e2 = false ∧
      (postProcessUtterance c2nf c2wu).removed_non_filterable =
        some (c2nf.filter
          (fun q => wordMatch q "Status eq 'X' and Region eq 'Y'".data)) ∧
      (postProcessUtterance c2nf c2wu).warning =
        some (warnMsg (c2nf.filter
          (fun q => wordMatch q "Status eq 'X' and Region eq 'Y'".data))) ∧
      (postProcessUtterance c2nf c2wu).original_endpoint =
        some ("/Entity".data ++ '?' :: (filterEqPat ++
          ("Status eq 'X' and Region eq 'Y'".data ++ []))) ∧
      (postProcessUtterance c2nf c2wu).auto_modified = some true :=
  filter_strip_spec c2nf c2wu "/Entity".data
    "Status eq 'X' and Region eq 'Y'".data []
    (by decide) (by decide) (by decide) (Or.inl rfl) (by decide) (by decide)

/-! ### C10: a first-parameter filter strip removes the query separator -/

/-- C10: for an endpoint whose `$filter` is the first and only query
parameter (immediately after the `'?'`, with a plain path before it),
that contains no `$top`, and whose clause mentions a non-filterable
property, the strip regex removes the `'?'` together with the `$filter`
segment: the repaired endpoint is exactly the path followed by the
appended `&$top=50`, and contains no `'?'` at all — neither cleanup
reintroduces one. -/
theorem filter_first_param_strip (nf : List Str) (u : Utterance) (p c : Str)
    (hu : u.suggested_endpoint = some (p ++ '?' :: (filterEqPat ++ c)))
    (hpd : '$' ∉ lcStr p)
    (hpq : '?' ∉ p)
    (hpa : '&' ∉ p)
    (hc : '&' ∉ c)
    (htop : topIn (p ++ '?' :: (filterEqPat ++ c)) = false)
    (hused : nf.filter (fun q => wordMatch q c) ≠ []) :
    (postProcessUtterance nf u).suggested_endpoint = some (p ++ ampTop) ∧
    '?' ∉ p ++ ampTop := by
  have hnoq : '?' ∉ p ++ ampTop := by
    intro hmem
    rcases List.mem_append.mp hmem with h | h
    · exact hpq h
    · exact absurd h (by decide)
  have hu' : u.suggested_endpoint =
      some (p ++ '?' :: (filterEqPat ++ (c ++ []))) := by
    rw [List.append_nil]; exact hu
  obtain ⟨r1, hcase, _, _, heq⟩ :=
    postProcess_strip_eval nf u p c [] hu' hpd hc (Or.inl rfl) (by decide)
      hused
  have htop' : topIn (p ++ '?' :: (filterEqPat ++ (c ++ []))) = false := by
    rw [List.append_nil]; exact htop
  rcases hcase with ⟨ht, -⟩ | ⟨-, rfl⟩
  · rw [htop'] at ht
    exact absurd ht (by decide)
  · have hclean : replAA (replQA (p ++ ([] ++ ampTop))) = p ++ ampTop := by
      rw [List.nil_append]
      rw [replQA_of_no_qmark _ hnoq]
      rw [show ampTop = '&' :: "$top=50".data from rfl]
      rw [replAA_append_amp p _ hpa (by decide)]
      rw [show replAA "$top=50".data = "$top=50".data from by decide]
    refine ⟨?_, hnoq⟩
    rw [heq]
    show some (replAA (replQA (p ++ ([] ++ ampTop)))) = some (p ++ ampTop)
    rw [hclean]

def c10u : Utterance :=
  { suggested_endpoint := some "/Entity?$filter=Region eq 'Y'".data }

/-- Witness for C10 on the claim's own example
`/Entity?$filter=Region eq 'Y'`, which repairs to `/Entity&$top=50`. -/
theorem filter_first_param_strip_witness :
    ((postProcessUtterance c2nf c10u).suggested_endpoint =
      some ("/Entity".data ++ ampTop) ∧
      '?' ∉ "/Entity".data ++ ampTop) ∧
    "/Entity".data ++ ampTop = "/Entity&$top=50".data :=
  ⟨filter_first_param_strip c2nf c10u "/Entity".data "Region eq 'Y'".data
    (by decide) (by decide) (by decide) (by decide) (by decide) (by decide)
    (by decide), by decide⟩
